import Mathlib

/-!
Doubly-linked node chains (`node.h`).

A shallow embedding of the free functions of `node.h` (`insert`, `remove`,
`size`, `clear`, `copy`, `assign`) over an explicit heap, followed by the
properties of these functions.

* A pointer `Node<T>*` is an `Option Nat`: `none` is `nullptr`, `some a` is the
  address `a`.
* The heap is a list of cells indexed by address; a cell is `some node` while
  the node is allocated and `none` once it has been destroyed.  `new` appends a
  cell, so the fresh address is the current length of the heap.
* Every function returns `none` when the C++ program would dereference or
  delete a pointer that is not allocated, or when a loop does not terminate.
  The loops run on a fuel of `heap length + 1` iterations: a traversal that
  visits more nodes than there are cells is on a cycle.
-/

namespace NodeH

/-- The class `Node<T>`: user data and the two links. -/
structure Node (T : Type) where
  data : T
  pNext : Option Nat
  pPrev : Option Nat
deriving DecidableEq

/-- A value of type `Node<T>*`. -/
abbrev Ptr := Option Nat

/-- The free store: cell `a` holds the node allocated at address `a`. -/
abbrev Heap (T : Type) := List (Option (Node T))

variable {T : Type}

/-- The node stored at an address, when one is allocated there. -/
def Heap.read (h : Heap T) (a : Nat) : Option (Node T) := (h.get? a).join

/-- The read `p->data`. -/
def getData (h : Heap T) (p : Nat) : Option T := (h.read p).map Node.data

/-- The read `p->pNext`. -/
def getNext (h : Heap T) (p : Nat) : Option Ptr := (h.read p).map Node.pNext

/-- The read `p->pPrev`. -/
def getPrev (h : Heap T) (p : Nat) : Option Ptr := (h.read p).map Node.pPrev

/-- The assignment `p->data = d`. -/
def setData (h : Heap T) (p : Nat) (d : T) : Option (Heap T) :=
  (h.read p).map fun n => h.set p (some { n with data := d })

/-- The assignment `p->pNext = q`. -/
def setNext (h : Heap T) (p : Nat) (q : Ptr) : Option (Heap T) :=
  (h.read p).map fun n => h.set p (some { n with pNext := q })

/-- The assignment `p->pPrev = q`. -/
def setPrev (h : Heap T) (p : Nat) (q : Ptr) : Option (Heap T) :=
  (h.read p).map fun n => h.set p (some { n with pPrev := q })

/-- The expression `new Node<T>(t)`: the constructor `Node(const T & data)` leaves both links null. -/
def alloc (h : Heap T) (t : T) : Heap T × Nat :=
  (h ++ [some ⟨t, none, none⟩], h.length)

/-- The statement `delete p` for a non-null `p`. -/
def free (h : Heap T) (p : Nat) : Option (Heap T) :=
  (h.read p).map fun _ => h.set p none

/-- The function `insert` (node.h, lines 202-227). Returns the heap and `pNew`. -/
def insert (h : Heap T) (pCurrent : Ptr) (t : T) (after : Bool) : Option (Heap T × Ptr) := do
  let (h, pNew) := alloc h t
  let h ←
    match pCurrent, after with
    | some c, false => do
      let h ← setNext h pNew (some c)
      let cPrev ← getPrev h c
      let h ← setPrev h pNew cPrev
      let h ← setPrev h c (some pNew)
      let nPrev ← getPrev h pNew
      match nPrev with
      | some q => setNext h q (some pNew)
      | none => pure h
    | _, _ => pure h
  let h ←
    match pCurrent, after with
    | some c, true => do
      let cNext ← getNext h c
      let h ← setNext h pNew cNext
      let h ← setPrev h pNew (some c)
      let h ← setNext h c (some pNew)
      let nNext ← getNext h pNew
      match nNext with
      | some q => setPrev h q (some pNew)
      | none => pure h
    | _, _ => pure h
  pure (h, some pNew)

/-- The function `remove` (node.h, lines 162-188). Returns the heap and `pReturn`. -/
def remove (h : Heap T) (pRemove : Ptr) : Option (Heap T × Ptr) :=
  match pRemove with
  | none => some (h, none)
  | some r => do
    let pPrev ← getPrev h r
    let pNext ← getNext h r
    let h ←
      match pNext with
      | some n => setPrev h n pPrev
      | none => pure h
    let (h, pReturn) ←
      match pPrev with
      | some p => do
        let h ← setNext h p pNext
        pure (h, some p)
      | none => pure (h, pNext)
    let h ← free h r
    pure (h, pReturn)

/-- The loop of `size`: `for (p = pHead; p; p = p->pNext) count++`. -/
def sizeLoop (h : Heap T) : Nat → Ptr → Nat → Option Nat
  | _, none, count => some count
  | 0, some _, _ => none
  | fuel + 1, some p, count => do
    let nx ← getNext h p
    sizeLoop h fuel nx (count + 1)

/-- The function `size` (node.h, lines 237-247). -/
def size (h : Heap T) (pHead : Ptr) : Option Nat :=
  sizeLoop h (h.length + 1) pHead 0

/-- The loop of `clear`; the state is the heap and the reference `pHead`. -/
def clearLoop : Nat → Heap T → Ptr → Option (Heap T × Ptr)
  | _, h, none => some (h, none)
  | 0, _, some _ => none
  | fuel + 1, h, some p => do
    let nx ← getNext h p
    let h ← free h p
    clearLoop fuel h nx

/-- The function `clear` (node.h, lines 270-280). Returns the heap and the final
value of the reference `pHead`. -/
def clear (h : Heap T) (pHead : Ptr) : Option (Heap T × Ptr) :=
  clearLoop (h.length + 1) h pHead

/-- The loop of `copy`; the state is the heap, `pDestination`, `pSrc` and `pDes`. -/
def copyLoop : Nat → Heap T → Ptr → Ptr → Ptr → Option (Heap T × Ptr)
  | _, h, pDestination, none, _ => some (h, pDestination)
  | 0, _, _, some _, _ => none
  | fuel + 1, h, pDestination, some s, pDes => do
    let d ← getData h s
    let (h, pDes) ← insert h pDes d false
    let pDestination := if pDestination = none then pDes else pDestination
    let nx ← getNext h s
    copyLoop fuel h pDestination nx pDes

/-- The function `copy` (node.h, lines 73-88). Returns the heap and `pDestination`. -/
def copy (h : Heap T) (pSource : Ptr) : Option (Heap T × Ptr) :=
  copyLoop (h.length + 1) h none pSource none

/-- The first loop of `assign` (lines 104-108); returns the heap, `pDes` and `pSrc`. -/
def assignOverlap : Nat → Heap T → Ptr → Ptr → Option (Heap T × Ptr × Ptr)
  | _, h, none, pSrc => some (h, none, pSrc)
  | _, h, some d, none => some (h, some d, none)
  | 0, _, some _, some _ => none
  | fuel + 1, h, some d, some s => do
    let v ← getData h s
    let h ← setData h d v
    let dNext ← getNext h d
    let sNext ← getNext h s
    assignOverlap fuel h dNext sNext

/-- The second loop of `assign` (lines 113-121); `pDes` does not change in it.
Returns the heap, `pDestination` and `pSrc`. -/
def assignAppend (pDes : Ptr) : Nat → Heap T → Ptr → Ptr → Option (Heap T × Ptr × Ptr)
  | _, h, pDestination, none => some (h, pDestination, none)
  | 0, _, _, some _ => none
  | fuel + 1, h, pDestination, some s => do
    let v ← getData h s
    let (h, _) ← insert h pDes v true
    let pDestination := if pDestination = none then pDes else pDestination
    let sNext ← getNext h s
    assignAppend pDes fuel h pDestination sNext

/-- The function `assign` (node.h, lines 98-142). Returns the heap and the final
value of the reference `pDestination`. -/
def assign (h : Heap T) (pDestination pSource : Ptr) : Option (Heap T × Ptr) := do
  let (h, pDes, pSrc) ← assignOverlap (h.length + 1) h pDestination pSource
  let (h, pDestination, pSrc) ←
    if pSrc ≠ none then assignAppend pDes (h.length + 1) h pDestination pSrc
    else pure (h, pDestination, pSrc)
  match pSrc, pDes with
  | none, some d => do
    let dPrev ← getPrev h d
    let (h, setToNull) ←
      match dPrev with
      | some q => do
        let h ← setNext h q none
        pure (h, false)
      | none => pure (h, true)
    let (h, _) ← clear h (some d)
    pure (h, if setToNull then none else pDestination)
  | _, _ => pure (h, pDestination)

/-- Forward traversal: the values met by following `pNext` from `p` until null is
reached (the walk of `size`, collecting the data instead of counting). -/
def traverseLoop (h : Heap T) : Nat → Ptr → Option (List T)
  | _, none => some []
  | 0, some _ => none
  | fuel + 1, some p => do
    let n ← h.read p
    let rest ← traverseLoop h fuel n.pNext
    pure (n.data :: rest)

/-- Forward traversal from `p` on the whole heap. -/
def traverse (h : Heap T) (p : Ptr) : Option (List T) :=
  traverseLoop h (h.length + 1) p

/-- The pointer to the first node of `as`, or `nx` when `as` is empty. -/
def headOr (as : List Nat) (nx : Ptr) : Ptr :=
  match as with
  | [] => nx
  | a :: _ => some a

/-- The pointer to the last node of `as`, or `pv` when `as` is empty. -/
def lastOr (pv : Ptr) : List Nat → Ptr
  | [] => pv
  | a :: as => lastOr (some a) as

/-- The predicate `Seg h pv as vs nx`: in the heap `h` the nodes at the addresses `as` are
allocated, hold the values `vs` in this order, and are doubly linked one to the
next; the first node's `pPrev` is `pv` and the last node's `pNext` is `nx`. -/
def Seg (h : Heap T) : Ptr → List Nat → List T → Ptr → Prop
  | _, [], [], _ => True
  | pv, a :: as, v :: vs, nx => h.read a = some ⟨v, headOr as nx, pv⟩ ∧ Seg h (some a) as vs nx
  | _, _, _, _ => False

/-! ## Example heaps and the chain-building procedure -/

/-- The chain `[1, 2, 3]` laid out at the addresses 0, 1, 2. -/
def chain123 : Heap Nat :=
  [some ⟨1, some 1, none⟩, some ⟨2, some 2, some 0⟩, some ⟨3, none, some 1⟩]

/-- The chain `[5, 6, 7]` laid out at the addresses 0, 1, 2. -/
def chain567 : Heap Nat :=
  [some ⟨5, some 1, none⟩, some ⟨6, some 2, some 0⟩, some ⟨7, none, some 1⟩]

/-- The chain `[1, 2, 3]` at the addresses 0, 1, 2 and the chain `[7]` at address 3. -/
def chain123and7 : Heap Nat :=
  [some ⟨1, some 1, none⟩, some ⟨2, some 2, some 0⟩, some ⟨3, none, some 1⟩,
    some ⟨7, none, none⟩]

/-- Repeated "insert after the current tail": each value is inserted, in after
mode, at the node returned by the previous call. Returns the heap and the node
returned by the last call. -/
def appendAll : List T → Heap T → Ptr → Option (Heap T × Ptr)
  | [], h, tail => some (h, tail)
  | v :: vs, h, tail => do
    let (h, pNew) ← insert h tail v true
    appendAll vs h pNew

/-- Building a chain from a sequence of values: the first value is inserted at the
null position, the following ones after the current tail. Returns the heap and
the first node (null for the empty sequence). -/
def build (h : Heap T) (after : Bool) : List T → Option (Heap T × Ptr)
  | [] => some (h, none)
  | v :: vs => do
    let (h, first) ← insert h none v after
    let (h, _) ← appendAll vs h first
    pure (h, first)

/-- The chain `[1, 2, 3, 4]` at the addresses 0 to 3 and the chain `[9, 8]` at the
addresses 4, 5. -/
def chain1234and98 : Heap Nat :=
  [some ⟨1, some 1, none⟩, some ⟨2, some 2, some 0⟩, some ⟨3, some 3, some 1⟩,
    some ⟨4, none, some 2⟩, some ⟨9, some 5, none⟩, some ⟨8, none, some 4⟩]

/-- Backward traversal: the values met by following `pPrev` from `p` until null is
reached. -/
def traverseBackLoop (h : Heap T) : Nat → Ptr → Option (List T)
  | _, none => some []
  | 0, some _ => none
  | fuel + 1, some p => do
    let n ← h.read p
    let rest ← traverseBackLoop h fuel n.pPrev
    pure (n.data :: rest)

/-- Backward traversal from `p` on the whole heap. -/
def traverseBack (h : Heap T) (p : Ptr) : Option (List T) :=
  traverseBackLoop h (h.length + 1) p

/-- The node `b` is the `pNext` or the `pPrev` of the allocated node `a`. -/
def Linked (h : Heap T) (a b : Nat) : Prop :=
  ∃ n, h.read a = some n ∧ (n.pNext = some b ∨ n.pPrev = some b)

/-- The node `b` is reachable from the node `a` by following `pNext` and `pPrev`
links, in any number of steps and in either direction. -/
def Reach (h : Heap T) (a b : Nat) : Prop :=
  Relation.ReflTransGen (Linked h) a b

/-- The pointer reached from `p` by following `pNext` exactly `k` times. -/
def walkNext (h : Heap T) : Nat → Ptr → Option Ptr
  | 0, p => some p
  | _ + 1, none => none
  | k + 1, some a => (h.read a).bind fun n => walkNext h k n.pNext

/-- The pointer reached from `p` by following `pPrev` exactly `k` times. -/
def walkPrev (h : Heap T) : Nat → Ptr → Option Ptr
  | 0, p => some p
  | _ + 1, none => none
  | k + 1, some a => (h.read a).bind fun n => walkPrev h k n.pPrev

/-- The invariant set of the data model: every non-null link of an allocated node
refers to an allocated node, `A.pNext == B` exactly when `B.pPrev == A`, and there
is no cycle: following `pNext` from any node reaches null, and so does following
`pPrev`. -/
structure Inv (h : Heap T) : Prop where
  next_alloc : ∀ a na b, h.read a = some na → na.pNext = some b → ∃ nb, h.read b = some nb
  prev_alloc : ∀ a na b, h.read a = some na → na.pPrev = some b → ∃ nb, h.read b = some nb
  link : ∀ a na b nb, h.read a = some na → h.read b = some nb →
    (na.pNext = some b ↔ nb.pPrev = some a)
  to_tail : ∀ a na, h.read a = some na → ∃ k, walkNext h k (some a) = some none
  to_head : ∀ a na, h.read a = some na → ∃ k, walkPrev h k (some a) = some none

/-- The pointer is null or refers to an allocated node. -/
def Valid (h : Heap T) (p : Ptr) : Prop :=
  p = none ∨ ∃ a n, p = some a ∧ h.read a = some n

/-- The pointer is null or refers to an allocated node whose `pPrev` is null. -/
def IsHead (h : Heap T) (p : Ptr) : Prop :=
  p = none ∨ ∃ a n, p = some a ∧ h.read a = some n ∧ n.pPrev = none

/-- Every allocated node lies on a chain that starts at a node with null `pPrev`
and ends at a node with null `pNext`. -/
def Chains (h : Heap T) : Prop :=
  ∀ a na, h.read a = some na → ∃ cs xs, Seg h none cs xs none ∧ a ∈ cs

/-- The two heaps have the same cells allocated and the same links in them; the
data may differ. -/
def SameLinks (h h' : Heap T) : Prop :=
  h'.length = h.length ∧
    ∀ a, (h'.read a).map (fun n => (n.pNext, n.pPrev)) =
      (h.read a).map (fun n => (n.pNext, n.pPrev))

/-! ## Reading the heap after an update -/

theorem read_lt {h : Heap T} {a : Nat} {n : Node T} (hr : h.read a = some n) : a < h.length := by
  by_contra hlt
  have : h[a]? = none := List.getElem?_eq_none (by omega)
  simp [Heap.read, this] at hr

theorem read_ge {h : Heap T} {a : Nat} (ha : h.length ≤ a) : h.read a = none := by
  have : h[a]? = none := List.getElem?_eq_none ha
  simp [Heap.read, this]

theorem read_set_self {h : Heap T} {a : Nat} (x : Option (Node T)) (ha : a < h.length) :
    Heap.read (h.set a x) a = x := by
  simp [Heap.read, List.getElem?_set, ha]

theorem read_set_ne {h : Heap T} {a b : Nat} (x : Option (Node T)) (hab : a ≠ b) :
    Heap.read (h.set a x) b = h.read b := by
  simp [Heap.read, List.getElem?_set, hab]

theorem read_append_of_lt {h : Heap T} {a : Nat} (l : Heap T) (ha : a < h.length) :
    Heap.read (h ++ l) a = h.read a := by
  simp [Heap.read, List.getElem?_append_left ha]

theorem read_append_some {h : Heap T} {a : Nat} {n : Node T} (l : Heap T)
    (hr : h.read a = some n) : Heap.read (h ++ l) a = some n := by
  rw [read_append_of_lt l (read_lt hr), hr]

theorem read_append_length (h : Heap T) (x : Option (Node T)) :
    Heap.read (h ++ [x]) h.length = x := by
  simp [Heap.read]

/-! ## Segments -/

@[simp]
theorem headOr_nil (nx : Ptr) : headOr [] nx = nx := rfl
@[simp]
theorem headOr_cons (a : Nat) (as : List Nat) (nx : Ptr) : headOr (a :: as) nx = some a := rfl
@[simp]
theorem lastOr_nil (pv : Ptr) : lastOr pv [] = pv := rfl
@[simp]
theorem lastOr_cons (pv : Ptr) (a : Nat) (as : List Nat) :
    lastOr pv (a :: as) = lastOr (some a) as := rfl

theorem headOr_append (l1 l2 : List Nat) (nx : Ptr) :
    headOr (l1 ++ l2) nx = headOr l1 (headOr l2 nx) := by
  cases l1 <;> rfl

theorem lastOr_append (pv : Ptr) (l1 l2 : List Nat) :
    lastOr pv (l1 ++ l2) = lastOr (lastOr pv l1) l2 := by
  induction l1 generalizing pv with
  | nil => rfl
  | cons a l1 ih => simp [ih]

@[simp]
theorem seg_nil (h : Heap T) (pv nx : Ptr) : Seg h pv [] [] nx ↔ True := by
  simp [Seg]

@[simp]
theorem seg_cons (h : Heap T) (pv nx : Ptr) (a : Nat) (as : List Nat) (v : T) (vs : List T) :
    Seg h pv (a :: as) (v :: vs) nx ↔
      h.read a = some ⟨v, headOr as nx, pv⟩ ∧ Seg h (some a) as vs nx := by
  simp [Seg]

theorem Seg.length_eq {h : Heap T} {pv nx : Ptr} {as : List Nat} {vs : List T}
    (hs : Seg h pv as vs nx) : as.length = vs.length := by
  induction as generalizing pv vs with
  | nil => cases vs with
    | nil => rfl
    | cons v vs => simp [Seg] at hs
  | cons a as ih => cases vs with
    | nil => simp [Seg] at hs
    | cons v vs => simp at hs; simp [ih hs.2]

theorem Seg.mem_lt {h : Heap T} {pv nx : Ptr} {as : List Nat} {vs : List T}
    (hs : Seg h pv as vs nx) {a : Nat} (ha : a ∈ as) : a < h.length := by
  induction as generalizing pv vs with
  | nil => simp at ha
  | cons b as ih => cases vs with
    | nil => simp [Seg] at hs
    | cons v vs =>
      simp at hs
      rcases List.mem_cons.1 ha with rfl | ha
      · exact read_lt hs.1
      · exact ih hs.2 ha

theorem Seg.frame {h h' : Heap T} {pv nx : Ptr} {as : List Nat} {vs : List T}
    (hs : Seg h pv as vs nx) (hf : ∀ a ∈ as, h'.read a = h.read a) : Seg h' pv as vs nx := by
  induction as generalizing pv vs with
  | nil => cases vs with
    | nil => simp
    | cons v vs => simp [Seg] at hs
  | cons b as ih => cases vs with
    | nil => simp [Seg] at hs
    | cons v vs =>
      simp at hs ⊢
      refine ⟨?_, ih hs.2 fun a ha => hf a (List.mem_cons_of_mem _ ha)⟩
      rw [hf b (List.mem_cons_self _ _)]; exact hs.1

theorem seg_append {h : Heap T} {pv nx : Ptr} {as1 as2 : List Nat} {vs1 vs2 : List T}
    (hl : as1.length = vs1.length) :
    Seg h pv (as1 ++ as2) (vs1 ++ vs2) nx ↔
      Seg h pv as1 vs1 (headOr as2 nx) ∧ Seg h (lastOr pv as1) as2 vs2 nx := by
  induction as1 generalizing pv vs1 with
  | nil => cases vs1 with
    | nil => simp
    | cons v vs => simp at hl
  | cons b as ih => cases vs1 with
    | nil => simp at hl
    | cons v vs =>
      simp at hl
      simp [ih hl, headOr_append, and_assoc]

/-! ## Walking a null-terminated segment -/

theorem sizeLoop_seg {h : Heap T} {pv : Ptr} {as : List Nat} {vs : List T}
    (hs : Seg h pv as vs none) (fuel count : Nat) (hf : as.length ≤ fuel) :
    sizeLoop h fuel (headOr as none) count = some (count + as.length) := by
  induction as generalizing pv vs fuel count with
  | nil => cases fuel <;> simp [sizeLoop]
  | cons a as ih => cases vs with
    | nil => simp [Seg] at hs
    | cons v vs =>
      simp at hs
      cases fuel with
      | zero => simp at hf
      | succ fuel =>
        simp at hf
        simp [sizeLoop, getNext, hs.1, ih hs.2 fuel (count + 1) hf]
        omega

theorem traverseLoop_seg {h : Heap T} {pv : Ptr} {as : List Nat} {vs : List T}
    (hs : Seg h pv as vs none) (fuel : Nat) (hf : as.length ≤ fuel) :
    traverseLoop h fuel (headOr as none) = some vs := by
  induction as generalizing pv vs fuel with
  | nil => cases vs with
    | nil => cases fuel <;> simp [traverseLoop]
    | cons v vs => simp [Seg] at hs
  | cons a as ih => cases vs with
    | nil => simp [Seg] at hs
    | cons v vs =>
      simp at hs
      cases fuel with
      | zero => simp at hf
      | succ fuel =>
        simp at hf
        simp [traverseLoop, hs.1, ih hs.2 fuel hf]

theorem Seg.suffix {h : Heap T} {pv nx : Ptr} {l1 l2 : List Nat} {vs : List T}
    (hs : Seg h pv (l1 ++ l2) vs nx) :
    Seg h (lastOr pv l1) l2 (vs.drop l1.length) nx := by
  have hl := hs.length_eq
  have hv : vs = vs.take l1.length ++ vs.drop l1.length := (List.take_append_drop _ _).symm
  rw [hv] at hs
  have hl1 : l1.length = (vs.take l1.length).length := by
    simp at hl ⊢; omega
  exact ((seg_append hl1).1 hs).2

/-- A null-terminated segment visits no address twice. -/
theorem Seg.nodup {h : Heap T} {pv : Ptr} {as : List Nat} {vs : List T}
    (hs : Seg h pv as vs none) : as.Nodup := by
  induction as generalizing pv vs with
  | nil => exact List.nodup_nil
  | cons a as ih => cases vs with
    | nil => simp [Seg] at hs
    | cons v vs =>
      have hs' := hs
      simp at hs'
      refine List.nodup_cons.2 ⟨?_, ih hs'.2⟩
      intro hmem
      obtain ⟨l1, l2, rfl⟩ := List.append_of_mem hmem
      have h1 := sizeLoop_seg hs (l1.length + l2.length + 2) 0 (by simp; omega)
      have hsuf : Seg h (lastOr pv (a :: l1)) (a :: l2) _ none :=
        @Seg.suffix T h pv none (a :: l1) (a :: l2) _ hs
      have h2 := sizeLoop_seg hsuf (l1.length + l2.length + 2) 0 (by simp; omega)
      simp at h1 h2
      rw [h1] at h2
      simp at h2
      omega

theorem length_le_of_nodup_lt {as : List Nat} {n : Nat} (hn : as.Nodup)
    (hlt : ∀ a ∈ as, a < n) : as.length ≤ n := by
  have hsub : as.toFinset ⊆ Finset.range n := by
    intro a ha
    simp at ha
    simpa using hlt a ha
  have := Finset.card_le_card hsub
  rwa [List.toFinset_card_of_nodup hn, Finset.card_range] at this

theorem Seg.length_le {h : Heap T} {pv : Ptr} {as : List Nat} {vs : List T}
    (hs : Seg h pv as vs none) : as.length ≤ h.length :=
  length_le_of_nodup_lt hs.nodup fun _ ha => hs.mem_lt ha

theorem size_seg {h : Heap T} {pv : Ptr} {as : List Nat} {vs : List T}
    (hs : Seg h pv as vs none) : size h (headOr as none) = some as.length := by
  have := sizeLoop_seg hs (h.length + 1) 0 (by have := hs.length_le; omega)
  simpa [size] using this

theorem traverse_seg {h : Heap T} {pv : Ptr} {as : List Nat} {vs : List T}
    (hs : Seg h pv as vs none) : traverse h (headOr as none) = some vs :=
  traverseLoop_seg hs (h.length + 1) (by have := hs.length_le; omega)

/-! ## The heap after `insert` and `remove` -/

/-- Reading a heap after one cell was overwritten. -/
theorem read_set (h : Heap T) (a b : Nat) (x : Option (Node T)) :
    Heap.read (h.set a x) b = if a = b ∧ a < h.length then x else h.read b := by
  by_cases hab : a = b
  · subst hab
    by_cases ha : a < h.length
    · simp [ha, read_set_self]
    · simp only [ha, and_false, if_false]
      rw [read_ge (by simp; omega), read_ge (by omega)]
  · simp [hab, read_set_ne]

theorem read_snoc (h : Heap T) (x : Option (Node T)) (a : Nat) :
    Heap.read (h ++ [x]) a = if a = h.length then x else h.read a := by
  by_cases ha : a = h.length
  · subst ha; simp [read_append_length]
  · simp only [ha, if_false]
    by_cases hlt : a < h.length
    · exact read_append_of_lt _ hlt
    · rw [read_ge (by simp; omega), read_ge (by omega)]

theorem insert_null (h : Heap T) (v : T) (after : Bool) :
    insert h none v after = some (h ++ [some ⟨v, none, none⟩], some h.length) := by
  cases after <;> rfl

theorem insert_before_reads {h : Heap T} {p : Nat} {pn : Node T} (v : T)
    (hp : h.read p = some pn)
    (hq : ∀ q, pn.pPrev = some q → q ≠ p ∧ ∃ qn, h.read q = some qn) :
    ∃ h', insert h (some p) v false = some (h', some h.length) ∧
      h'.length = h.length + 1 ∧
      h'.read h.length = some ⟨v, some p, pn.pPrev⟩ ∧
      h'.read p = some { pn with pPrev := some h.length } ∧
      (∀ q qn, pn.pPrev = some q → h.read q = some qn →
        h'.read q = some { qn with pNext := some h.length }) ∧
      (∀ a, a ≠ h.length → a ≠ p → some a ≠ pn.pPrev → h'.read a = h.read a) := by
  have hpl := read_lt hp
  have hpne : p ≠ h.length := by omega
  have hpne' : h.length ≠ p := by omega
  rcases hpp : pn.pPrev with _ | q
  · simp [insert, alloc, setNext, getPrev, setPrev, read_set, read_snoc, hp, hpp, hpne, hpne', hpl,
      Nat.lt_succ_of_lt]
    intro a ha hap
    simp [ha, hap, Ne.symm ha, Ne.symm hap]
  · obtain ⟨hqp, qn, hqn⟩ := hq q hpp
    have hql := read_lt hqn
    have hqne : q ≠ h.length := by omega
    have hqne' : h.length ≠ q := by omega
    simp [insert, alloc, setNext, getPrev, setPrev, read_set, read_snoc, hp, hpp, hpne, hpne',
        hqn, hqne, hqne', hqp, Ne.symm hqp, hpl, hql, Nat.lt_succ_of_lt]
    constructor
    · intro q' qn' hq' hqn'
      subst hq'
      rw [hqn] at hqn'
      simp at hqn'
      subst hqn'
      simp [hqne]
    · intro a ha hap haq
      simp [ha, hap, Ne.symm ha, Ne.symm hap, Ne.symm haq]

theorem insert_after_reads {h : Heap T} {p : Nat} {pn : Node T} (v : T)
    (hp : h.read p = some pn)
    (hq : ∀ q, pn.pNext = some q → q ≠ p ∧ ∃ qn, h.read q = some qn) :
    ∃ h', insert h (some p) v true = some (h', some h.length) ∧
      h'.length = h.length + 1 ∧
      h'.read h.length = some ⟨v, pn.pNext, some p⟩ ∧
      h'.read p = some { pn with pNext := some h.length } ∧
      (∀ q qn, pn.pNext = some q → h.read q = some qn →
        h'.read q = some { qn with pPrev := some h.length }) ∧
      (∀ a, a ≠ h.length → a ≠ p → some a ≠ pn.pNext → h'.read a = h.read a) := by
  have hpl := read_lt hp
  have hpne : p ≠ h.length := by omega
  have hpne' : h.length ≠ p := by omega
  rcases hpp : pn.pNext with _ | q
  · simp [insert, alloc, setNext, getNext, setPrev, read_set, read_snoc, hp, hpp, hpne, hpne', hpl,
      Nat.lt_succ_of_lt]
    intro a ha hap
    simp [ha, hap, Ne.symm ha, Ne.symm hap]
  · obtain ⟨hqp, qn, hqn⟩ := hq q hpp
    have hql := read_lt hqn
    have hqne : q ≠ h.length := by omega
    have hqne' : h.length ≠ q := by omega
    simp [insert, alloc, setNext, getNext, setPrev, read_set, read_snoc, hp, hpp, hpne, hpne',
        hqn, hqne, hqne', hqp, Ne.symm hqp, hpl, hql, Nat.lt_succ_of_lt]
    constructor
    · intro q' qn' hq' hqn'
      subst hq'
      rw [hqn] at hqn'
      simp at hqn'
      subst hqn'
      simp [hqne]
    · intro a ha hap haq
      simp [ha, hap, Ne.symm ha, Ne.symm hap, Ne.symm haq]

/-- The value `remove` returns: `pPrev` of the removed node when it is not null,
else its `pNext`. -/
theorem remove_returns {h : Heap T} {r : Nat} {rn : Node T}
    (hr : h.read r = some rn)
    (hprev : ∀ q, rn.pPrev = some q → ∃ qn, h.read q = some qn)
    (hnext : ∀ q, rn.pNext = some q → ∃ qn, h.read q = some qn) :
    ∃ h', remove h (some r) = some (h', if rn.pPrev = none then rn.pNext else rn.pPrev) := by
  have hrl := read_lt hr
  rcases hpp : rn.pPrev with _ | q <;> rcases hnn : rn.pNext with _ | q2
  · simp [remove, getPrev, getNext, free, hr, hpp, hnn]
  · obtain ⟨q2n, h2⟩ := hnext q2 hnn
    have := read_lt h2
    rcases eq_or_ne q2 r with rfl | h1
    · simp [remove, getPrev, getNext, free, setPrev, hr, hpp, hnn, read_set, hrl]
    · simp [remove, getPrev, getNext, free, setPrev, hr, hpp, hnn, read_set, hrl, h1, h2, this]
  · obtain ⟨q1n, h2⟩ := hprev q hpp
    have := read_lt h2
    rcases eq_or_ne q r with rfl | h1
    · simp [remove, getPrev, getNext, free, setNext, hr, hpp, hnn, read_set, hrl]
    · simp [remove, getPrev, getNext, free, setNext, hr, hpp, hnn, read_set, hrl, h1, h2, this]
  · obtain ⟨q1n, h2⟩ := hprev q hpp
    obtain ⟨q2n, h5⟩ := hnext q2 hnn
    have := read_lt h2
    have := read_lt h5
    rcases eq_or_ne q r with rfl | h1 <;> rcases eq_or_ne q2 q with rfl | h6
    · simp [remove, getPrev, getNext, free, setNext, setPrev, hr, hpp, hnn, read_set, hrl]
    · simp [remove, getPrev, getNext, free, setNext, setPrev, hr, hpp, hnn, read_set, hrl, h5,
        h6, Ne.symm h6, *]
    · simp [remove, getPrev, getNext, free, setNext, setPrev, hr, hpp, hnn, read_set, hrl, h2,
        h1, Ne.symm h1, *]
    · rcases eq_or_ne q2 r with rfl | h4
      · simp [remove, getPrev, getNext, free, setNext, setPrev, hr, hpp, hnn, read_set, hrl, h2,
          h1, Ne.symm h1, h6, Ne.symm h6, *]
      · simp [remove, getPrev, getNext, free, setNext, setPrev, hr, hpp, hnn, read_set, hrl, h2,
          h5, h1, Ne.symm h1, h6, Ne.symm h6, h4, Ne.symm h4, *]

theorem remove_reads {h : Heap T} {r : Nat} {rn : Node T}
    (hr : h.read r = some rn)
    (hprev : ∀ q, rn.pPrev = some q → q ≠ r ∧ rn.pNext ≠ some q ∧ ∃ qn, h.read q = some qn)
    (hnext : ∀ q, rn.pNext = some q → q ≠ r ∧ ∃ qn, h.read q = some qn) :
    ∃ h', remove h (some r) = some (h', if rn.pPrev = none then rn.pNext else rn.pPrev) ∧
      h'.length = h.length ∧
      h'.read r = none ∧
      (∀ q qn, rn.pNext = some q → h.read q = some qn →
        h'.read q = some { qn with pPrev := rn.pPrev }) ∧
      (∀ q qn, rn.pPrev = some q → h.read q = some qn →
        h'.read q = some { qn with pNext := rn.pNext }) ∧
      (∀ a, a ≠ r → some a ≠ rn.pPrev → some a ≠ rn.pNext → h'.read a = h.read a) := by
  have hrl := read_lt hr
  rcases hpp : rn.pPrev with _ | q <;> rcases hnn : rn.pNext with _ | q2
  · simp [remove, getPrev, getNext, free, hr, hpp, hnn, read_set, hrl]
    intro a ha; simp [Ne.symm ha]
  · obtain ⟨h1, q2n, h2⟩ := hnext q2 hnn
    have := read_lt h2
    simp [remove, getPrev, getNext, free, setPrev, hr, hpp, hnn, read_set, hrl, h1, h2,
      Ne.symm h1, this]
    constructor
    · rintro _ qn rfl hqn; rw [h2] at hqn; cases hqn; simp [Ne.symm h1]
    · intro a ha ha2; simp [Ne.symm ha, Ne.symm ha2]
  · obtain ⟨h1, _, q1n, h2⟩ := hprev q hpp
    have := read_lt h2
    simp [remove, getPrev, getNext, free, setNext, hr, hpp, hnn, read_set, hrl, h1, h2,
      Ne.symm h1, this]
    constructor
    · rintro _ qn rfl hqn; rw [h2] at hqn; cases hqn; simp [Ne.symm h1]
    · intro a ha ha2; simp [Ne.symm ha, Ne.symm ha2]
  · obtain ⟨h1, h3, q1n, h2⟩ := hprev q hpp
    obtain ⟨h4, q2n, h5⟩ := hnext q2 hnn
    have := read_lt h2
    have := read_lt h5
    have h6 : q2 ≠ q := by rw [hnn] at h3; simpa using h3
    simp [remove, getPrev, getNext, free, setNext, setPrev, hr, hpp, hnn, read_set, hrl, h1, h2,
      Ne.symm h1, h4, h5, Ne.symm h4, h6, Ne.symm h6, *]
    refine ⟨?_, ?_, ?_⟩
    · rintro _ qn rfl hqn; rw [h5] at hqn; cases hqn; simp [Ne.symm h4, Ne.symm h6, h6]
    · rintro _ qn rfl hqn; rw [h2] at hqn; cases hqn; simp [Ne.symm h1, h6]
    · intro a ha ha2 ha3; simp [Ne.symm ha, Ne.symm ha2, Ne.symm ha3]

/-- Inserting before a node overwrites no data. -/
theorem insert_before_data {h : Heap T} {p : Nat} {pn : Node T} (v : T)
    (hp : h.read p = some pn)
    (hq : ∀ q, pn.pPrev = some q → q ≠ p ∧ ∃ qn, h.read q = some qn)
    {h' : Heap T} {r : Ptr} (he : insert h (some p) v false = some (h', r))
    {a : Nat} {m : Node T} (ha : h.read a = some m) :
    (h'.read a).map Node.data = some m.data := by
  obtain ⟨h'', he', -, -, r2, r3, r4⟩ := insert_before_reads v hp hq
  rw [he'] at he
  cases he
  have hal := read_lt ha
  by_cases e1 : a = p
  · subst e1
    rw [hp] at ha
    cases ha
    rw [r2]
    rfl
  · by_cases e2 : some a = pn.pPrev
    · rw [r3 a m e2.symm ha]
      rfl
    · rw [r4 a (by omega) e1 e2, ha]
      rfl

/-- Inserting after a node overwrites no data. -/
theorem insert_after_data {h : Heap T} {p : Nat} {pn : Node T} (v : T)
    (hp : h.read p = some pn)
    (hq : ∀ q, pn.pNext = some q → q ≠ p ∧ ∃ qn, h.read q = some qn)
    {h' : Heap T} {r : Ptr} (he : insert h (some p) v true = some (h', r))
    {a : Nat} {m : Node T} (ha : h.read a = some m) :
    (h'.read a).map Node.data = some m.data := by
  obtain ⟨h'', he', -, -, r2, r3, r4⟩ := insert_after_reads v hp hq
  rw [he'] at he
  cases he
  have hal := read_lt ha
  by_cases e1 : a = p
  · subst e1
    rw [hp] at ha
    cases ha
    rw [r2]
    rfl
  · by_cases e2 : some a = pn.pNext
    · rw [r3 a m e2.symm ha]
      rfl
    · rw [r4 a (by omega) e1 e2, ha]
      rfl

/-- Removing a node overwrites no data of the nodes that are kept. -/
theorem remove_data {h : Heap T} {r : Nat} {rn : Node T}
    (hr : h.read r = some rn)
    (hprev : ∀ q, rn.pPrev = some q → q ≠ r ∧ rn.pNext ≠ some q ∧ ∃ qn, h.read q = some qn)
    (hnext : ∀ q, rn.pNext = some q → q ≠ r ∧ ∃ qn, h.read q = some qn)
    {h' : Heap T} {ret : Ptr} (he : remove h (some r) = some (h', ret))
    {a : Nat} {m : Node T} (har : a ≠ r) (ha : h.read a = some m) :
    (h'.read a).map Node.data = some m.data := by
  obtain ⟨h'', he', -, -, r2, r3, r4⟩ := remove_reads hr hprev hnext
  rw [he'] at he
  cases he
  by_cases e1 : some a = rn.pNext
  · rw [r2 a m e1.symm ha]
    rfl
  · by_cases e2 : some a = rn.pPrev
    · rw [r3 a m e2.symm ha]
      rfl
    · rw [r4 a har e2 e1, ha]
      rfl

/-! ## Relinking the ends of a segment -/

theorem eq_nil_or_snoc {α : Type} (l : List α) : l = [] ∨ ∃ l' a, l = l' ++ [a] := by
  rcases List.eq_nil_or_concat l with e | ⟨l', a, e⟩
  · exact Or.inl e
  · exact Or.inr ⟨l', a, by simpa using e⟩

theorem lastOr_concat (pv : Ptr) (as : List Nat) (a : Nat) : lastOr pv (as ++ [a]) = some a := by
  simp [lastOr_append]

theorem lastOr_of_ne_nil {as : List Nat} (pv pv' : Ptr) (hne : as ≠ []) :
    lastOr pv as = lastOr pv' as := by
  cases as with
  | nil => exact absurd rfl hne
  | cons a as => rfl

theorem lastOr_none_mem {as : List Nat} {q : Nat} (hq : lastOr none as = some q) : q ∈ as := by
  rcases eq_nil_or_snoc as with rfl | ⟨as', a, rfl⟩
  · simp at hq
  · rw [lastOr_concat] at hq
    cases hq
    simp

theorem headOr_none_mem {as : List Nat} {q : Nat} (hq : headOr as none = some q) : q ∈ as := by
  cases as with
  | nil => simp at hq
  | cons a as => simp at hq; simp [hq]

theorem Seg.mem_read {h : Heap T} {pv nx : Ptr} {as : List Nat} {vs : List T}
    (hs : Seg h pv as vs nx) {a : Nat} (ha : a ∈ as) : ∃ n, h.read a = some n := by
  induction as generalizing pv vs with
  | nil => simp at ha
  | cons b as ih => cases vs with
    | nil => simp [Seg] at hs
    | cons v vs =>
      simp at hs
      rcases List.mem_cons.1 ha with rfl | ha
      · exact ⟨_, hs.1⟩
      · exact ih hs.2 ha

/-- Overwriting the `pNext` of the last node of a segment redirects the segment. -/
theorem Seg.retarget_next {h h' : Heap T} {pv nx : Ptr} {as : List Nat} {vs : List T}
    (nx' : Ptr) (hs : Seg h pv as vs nx) (hn : as.Nodup)
    (hf : ∀ a ∈ as, some a ≠ lastOr none as → h'.read a = h.read a)
    (hl : ∀ q qn, lastOr none as = some q → h.read q = some qn →
      h'.read q = some { qn with pNext := nx' }) :
    Seg h' pv as vs nx' := by
  have hlen := hs.length_eq
  rcases eq_nil_or_snoc as with rfl | ⟨as', q, rfl⟩
  · cases vs with
    | nil => simp
    | cons v vs => simp at hlen
  · rcases eq_nil_or_snoc vs with rfl | ⟨vs', y, rfl⟩
    · simp at hlen
    · have hl' : as'.length = vs'.length := by simpa using hlen
      rw [seg_append hl'] at hs ⊢
      simp only [lastOr_concat] at hf hl
      have hq : q ∉ as' := by
        intro hmem
        have := List.disjoint_of_nodup_append hn hmem
        simp at this
      refine ⟨hs.1.frame fun a ha => hf a (by simp [ha]) ?_, ?_⟩
      · intro e; cases e; exact hq ha
      · have h2 := hs.2
        simp at h2 ⊢
        simpa using hl q _ rfl h2

/-- Overwriting the `pPrev` of the first node of a segment re-anchors the segment. -/
theorem Seg.retarget_prev {h h' : Heap T} {pv nx : Ptr} {as : List Nat} {vs : List T}
    (pv' : Ptr) (hs : Seg h pv as vs nx) (hn : as.Nodup)
    (hf : ∀ a ∈ as, some a ≠ headOr as none → h'.read a = h.read a)
    (hl : ∀ q qn, headOr as none = some q → h.read q = some qn →
      h'.read q = some { qn with pPrev := pv' }) :
    Seg h' pv' as vs nx := by
  cases as with
  | nil => cases vs with
    | nil => simp
    | cons v vs => simp [Seg] at hs
  | cons a as => cases vs with
    | nil => simp [Seg] at hs
    | cons v vs =>
      simp only [seg_cons, headOr_cons] at hs hf hl ⊢
      have ha : a ∉ as := (List.nodup_cons.1 hn).1
      refine ⟨by simpa using hl a _ rfl hs.1,
        hs.2.frame fun b hb => hf b (List.mem_cons_of_mem _ hb) ?_⟩
      intro e; cases e; exact ha hb

/-! ## `insert` and `remove` inside a chain -/

theorem nodup_split {pre post : List Nat} {p : Nat} (hn : (pre ++ p :: post).Nodup) :
    pre.Nodup ∧ post.Nodup ∧ p ∉ pre ∧ p ∉ post ∧ ∀ a ∈ pre, a ∉ post := by
  rw [List.nodup_append] at hn
  obtain ⟨h1, h2, h3⟩ := hn
  rw [List.nodup_cons] at h2
  refine ⟨h1, h2.2, ?_, h2.1, ?_⟩
  · intro hp; exact h3 hp (List.mem_cons_self _ _)
  · intro a ha hb; exact h3 ha (List.mem_cons_of_mem _ hb)

theorem Seg.split {h : Heap T} {pre post : List Nat} {p : Nat} {xs1 xs2 : List T} {x : T}
    {pv nx : Ptr}
    (hs : Seg h pv (pre ++ p :: post) (xs1 ++ x :: xs2) nx) (hl : pre.length = xs1.length) :
    Seg h pv pre xs1 (some p) ∧ h.read p = some ⟨x, headOr post nx, lastOr pv pre⟩ ∧
      Seg h (some p) post xs2 nx := by
  rw [seg_append hl] at hs
  simpa using hs

theorem insert_before_seg {h : Heap T} {pre post : List Nat} {p : Nat} {xs1 xs2 : List T} {x : T}
    (v : T) (hs : Seg h none (pre ++ p :: post) (xs1 ++ x :: xs2) none)
    (hl : pre.length = xs1.length) :
    ∃ h', insert h (some p) v false = some (h', some h.length) ∧
      Seg h' none (pre ++ h.length :: p :: post) (xs1 ++ v :: x :: xs2) none ∧
      (∀ a, a ∉ pre ++ p :: post → a ≠ h.length → h'.read a = h.read a) ∧
      (∀ a m, h.read a = some m → (h'.read a).map Node.data = some m.data) := by
  obtain ⟨hn1, hn2, hp1, hp2, hdis⟩ := nodup_split hs.nodup
  obtain ⟨s1, hp, s2⟩ := hs.split hl
  have hq : ∀ q, lastOr none pre = some q → q ≠ p ∧ ∃ qn, h.read q = some qn := by
    intro q hq
    have hm := lastOr_none_mem hq
    exact ⟨fun e => hp1 (e ▸ hm), s1.mem_read hm⟩
  obtain ⟨h', he, -, r1, r2, r3, r4⟩ := insert_before_reads v hp hq
  have hfresh : ∀ a, a ∈ pre ++ p :: post → a ≠ h.length := by
    intro a ha e
    have := hs.mem_lt ha
    omega
  refine ⟨h', he, ?_, ?_, fun a m ha => insert_before_data v hp hq he ha⟩
  · rw [seg_append hl]
    refine ⟨?_, ?_⟩
    · refine s1.retarget_next _ hn1 ?_ ?_
      · intro a ha hne
        exact r4 a (hfresh a (by simp [ha])) (fun e => hp1 (e ▸ ha)) hne
      · intro q qn hq1 hq2
        exact r3 q qn hq1 hq2
    · simp only [seg_cons, headOr_cons, lastOr_cons]
      refine ⟨r1, r2, s2.frame ?_⟩
      intro a ha
      refine r4 a (hfresh a (by simp [ha])) (fun e => hp2 (e ▸ ha)) ?_
      intro e
      exact hdis a (lastOr_none_mem e.symm) ha
  · intro a ha hne
    simp at ha
    refine r4 a hne ha.2.1 ?_
    intro e
    exact ha.1 (lastOr_none_mem e.symm)

theorem insert_after_seg {h : Heap T} {pre post : List Nat} {p : Nat} {xs1 xs2 : List T} {x : T}
    (v : T) (hs : Seg h none (pre ++ p :: post) (xs1 ++ x :: xs2) none)
    (hl : pre.length = xs1.length) :
    ∃ h', insert h (some p) v true = some (h', some h.length) ∧
      Seg h' none (pre ++ p :: h.length :: post) (xs1 ++ x :: v :: xs2) none ∧
      (∀ a, a ∉ pre ++ p :: post → a ≠ h.length → h'.read a = h.read a) ∧
      (∀ a m, h.read a = some m → (h'.read a).map Node.data = some m.data) := by
  obtain ⟨hn1, hn2, hp1, hp2, hdis⟩ := nodup_split hs.nodup
  obtain ⟨s1, hp, s2⟩ := hs.split hl
  have hq : ∀ q, headOr post none = some q → q ≠ p ∧ ∃ qn, h.read q = some qn := by
    intro q hq
    have hm := headOr_none_mem hq
    exact ⟨fun e => hp2 (e ▸ hm), s2.mem_read hm⟩
  obtain ⟨h', he, -, r1, r2, r3, r4⟩ := insert_after_reads v hp hq
  have hfresh : ∀ a, a ∈ pre ++ p :: post → a ≠ h.length := by
    intro a ha e
    have := hs.mem_lt ha
    omega
  refine ⟨h', he, ?_, ?_, fun a m ha => insert_after_data v hp hq he ha⟩
  · rw [seg_append hl]
    refine ⟨?_, ?_⟩
    · refine s1.frame ?_
      intro a ha
      refine r4 a (hfresh a (by simp [ha])) (fun e => hp1 (e ▸ ha)) ?_
      intro e
      exact hdis a ha (headOr_none_mem e.symm)
    · simp only [seg_cons, headOr_cons, lastOr_cons]
      refine ⟨r2, r1, ?_⟩
      refine s2.retarget_prev _ hn2 ?_ ?_
      · intro a ha hne
        exact r4 a (hfresh a (by simp [ha])) (fun e => hp2 (e ▸ ha)) hne
      · intro q qn hq1 hq2
        exact r3 q qn hq1 hq2
  · intro a ha hne
    simp at ha
    refine r4 a hne ha.2.1 ?_
    intro e
    exact ha.2.2 (headOr_none_mem e.symm)

theorem remove_seg {h : Heap T} {pre post : List Nat} {r : Nat} {xs1 xs2 : List T} {x : T}
    (hs : Seg h none (pre ++ r :: post) (xs1 ++ x :: xs2) none)
    (hl : pre.length = xs1.length) :
    ∃ h', remove h (some r) =
        some (h', if lastOr none pre = none then headOr post none else lastOr none pre) ∧
      h'.length = h.length ∧
      h'.read r = none ∧
      Seg h' none (pre ++ post) (xs1 ++ xs2) none ∧
      (∀ a, a ∉ pre ++ r :: post → h'.read a = h.read a) ∧
      (∀ a m, a ≠ r → h.read a = some m → (h'.read a).map Node.data = some m.data) := by
  obtain ⟨hn1, hn2, hp1, hp2, hdis⟩ := nodup_split hs.nodup
  obtain ⟨s1, hp, s2⟩ := hs.split hl
  have hq1 : ∀ q, lastOr none pre = some q →
      q ≠ r ∧ headOr post none ≠ some q ∧ ∃ qn, h.read q = some qn := by
    intro q hq
    have hm := lastOr_none_mem hq
    exact ⟨fun e => hp1 (e ▸ hm), fun e => hdis q hm (headOr_none_mem e), s1.mem_read hm⟩
  have hq2 : ∀ q, headOr post none = some q → q ≠ r ∧ ∃ qn, h.read q = some qn := by
    intro q hq
    have hm := headOr_none_mem hq
    exact ⟨fun e => hp2 (e ▸ hm), s2.mem_read hm⟩
  obtain ⟨h', he, hlen, r1, r2, r3, r4⟩ := remove_reads hp hq1 hq2
  refine ⟨h', he, hlen, r1, ?_, ?_, fun a m har ha => remove_data hp hq1 hq2 he har ha⟩
  · rw [seg_append hl]
    refine ⟨?_, ?_⟩
    · refine s1.retarget_next _ hn1 ?_ ?_
      · intro a ha hne
        refine r4 a (fun e => hp1 (e ▸ ha)) hne ?_
        intro e
        exact hdis a ha (headOr_none_mem e.symm)
      · intro q qn hq1 hq2
        exact r3 q qn hq1 hq2
    · refine s2.retarget_prev _ hn2 ?_ ?_
      · intro a ha hne
        refine r4 a (fun e => hp2 (e ▸ ha)) ?_ hne
        intro e
        exact hdis a (lastOr_none_mem e.symm) ha
      · intro q qn hq1 hq2
        exact r2 q qn hq1 hq2
  · intro a ha
    simp at ha
    refine r4 a ha.2.1 ?_ ?_
    · intro e; exact ha.1 (lastOr_none_mem e.symm)
    · intro e; exact ha.2.2 (headOr_none_mem e.symm)

/-! ## `clear` on a chain -/

theorem clearLoop_seg {h : Heap T} {pv : Ptr} {as : List Nat} {vs : List T}
    (hs : Seg h pv as vs none) (fuel : Nat) (hf : as.length ≤ fuel) :
    ∃ h', clearLoop fuel h (headOr as none) = some (h', none) ∧
      h'.length = h.length ∧
      (∀ a, a ∈ as → h'.read a = none) ∧
      (∀ a, a ∉ as → h'.read a = h.read a) := by
  induction as generalizing pv vs fuel h with
  | nil => exact ⟨h, by cases fuel <;> simp [clearLoop], rfl, by simp, by simp⟩
  | cons a as ih => cases vs with
    | nil => simp [Seg] at hs
    | cons v vs =>
      have hn := hs.nodup
      have ha : a ∉ as := (List.nodup_cons.1 hn).1
      simp only [seg_cons] at hs
      cases fuel with
      | zero => simp at hf
      | succ fuel =>
        simp at hf
        have hal := read_lt hs.1
        have hs2 : Seg (h.set a none) (some a) as vs none :=
          hs.2.frame fun b hb => read_set_ne _ (fun e => ha (e ▸ hb))
        obtain ⟨h', he, hlen, r1, r2⟩ := ih hs2 fuel hf
        refine ⟨h', ?_, ?_, ?_, ?_⟩
        · simp [clearLoop, getNext, free, hs.1, he]
        · simpa using hlen
        · intro b hb
          rcases List.mem_cons.1 hb with rfl | hb
          · rw [r2 _ ha, read_set_self _ hal]
          · exact r1 b hb
        · intro b hb
          simp at hb
          rw [r2 b hb.2, read_set_ne _ (Ne.symm hb.1)]

theorem clear_seg {h : Heap T} {pv : Ptr} {as : List Nat} {vs : List T}
    (hs : Seg h pv as vs none) :
    ∃ h', clear h (headOr as none) = some (h', none) ∧
      h'.length = h.length ∧
      (∀ a, a ∈ as → h'.read a = none) ∧
      (∀ a, a ∉ as → h'.read a = h.read a) :=
  clearLoop_seg hs (h.length + 1) (by have := hs.length_le; omega)

/-! ## `assign` on two disjoint chains -/

theorem assignOverlap_seg {h : Heap T} {dpv spv : Ptr} {das sas : List Nat} {dvs svs : List T}
    (hd : Seg h dpv das dvs none) (hsrc : Seg h spv sas svs none)
    (hdis : ∀ a ∈ das, a ∉ sas) (fuel : Nat) (hf : das.length ≤ fuel) :
    ∃ h1, assignOverlap fuel h (headOr das none) (headOr sas none) =
        some (h1, headOr (das.drop sas.length) none, headOr (sas.drop das.length) none) ∧
      h1.length = h.length ∧
      Seg h1 dpv das (svs.take das.length ++ dvs.drop sas.length) none ∧
      (∀ a, a ∉ das → h1.read a = h.read a) := by
  induction das generalizing dpv spv sas dvs svs fuel h with
  | nil =>
    cases dvs with
    | nil => exact ⟨h, by cases fuel <;> simp [assignOverlap], rfl, by simp, by simp⟩
    | cons v vs => simp [Seg] at hd
  | cons d das ih =>
    cases dvs with
    | nil => simp [Seg] at hd
    | cons dv dvs =>
    have hdn := hd.nodup
    have hd' : d ∉ das := (List.nodup_cons.1 hdn).1
    cases sas with
    | nil =>
      cases svs with
      | nil => exact ⟨h, by cases fuel <;> simp [assignOverlap], rfl, by simpa using hd, by simp⟩
      | cons v vs => simp [Seg] at hsrc
    | cons s sas =>
      cases svs with
      | nil => simp [Seg] at hsrc
      | cons sv svs =>
        simp only [seg_cons] at hd hsrc
        cases fuel with
        | zero => simp at hf
        | succ fuel =>
          simp at hf
          have hdl := read_lt hd.1
          have hds : d ≠ s := fun e => hdis d (List.mem_cons_self _ _) (e ▸ List.mem_cons_self _ _)
          have hd2 : Seg (h.set d (some ⟨sv, headOr das none, dpv⟩)) (some d) das dvs none :=
            hd.2.frame fun b hb => read_set_ne _ (fun e => hd' (e ▸ hb))
          have hs2 : Seg (h.set d (some ⟨sv, headOr das none, dpv⟩)) (some s) sas svs none :=
            hsrc.2.frame fun b hb => read_set_ne _
              (fun e => hdis d (List.mem_cons_self _ _) (e ▸ List.mem_cons_of_mem _ hb))
          have hdis2 : ∀ a ∈ das, a ∉ sas := fun a ha hb =>
            hdis a (List.mem_cons_of_mem _ ha) (List.mem_cons_of_mem _ hb)
          obtain ⟨h1, he, hlen, r1, r2⟩ := ih hd2 hs2 hdis2 fuel hf
          refine ⟨h1, ?_, ?_, ?_, ?_⟩
          · simp [assignOverlap, getData, setData, getNext, hd.1, hsrc.1, read_set, hdl, hds, he]
          · simpa using hlen
          · simp only [List.length_cons, List.take_succ_cons, List.drop_succ_cons, List.cons_append,
              seg_cons]
            refine ⟨?_, r1⟩
            rw [r2 d hd', read_set_self _ hdl]
          · intro b hb
            simp at hb
            rw [r2 b hb.2, read_set_ne _ (Ne.symm hb.1)]

/-- The detached nodes the second loop of `assign` allocates. -/
theorem assignAppend_null {h : Heap T} {spv : Ptr} {sas : List Nat} {svs : List T}
    (hsrc : Seg h spv sas svs none) (pd : Ptr) (fuel : Nat) (hf : sas.length ≤ fuel) :
    assignAppend none fuel h pd (headOr sas none) =
      some (h ++ svs.map (fun v => some ⟨v, none, none⟩), pd, none) := by
  induction sas generalizing spv svs fuel h with
  | nil =>
    cases svs with
    | nil => cases fuel <;> simp [assignAppend]
    | cons v vs => simp [Seg] at hsrc
  | cons s sas ih =>
    cases svs with
    | nil => simp [Seg] at hsrc
    | cons sv svs =>
      simp only [seg_cons] at hsrc
      cases fuel with
      | zero => simp at hf
      | succ fuel =>
        simp at hf
        have hs2 : Seg (h ++ [some ⟨sv, none, none⟩]) (some s) sas svs none :=
          hsrc.2.frame fun b hb => read_append_of_lt _ (hsrc.2.mem_lt hb)
        have := ih hs2 fuel hf
        have hpd : (if pd = none then none else pd) = pd := by cases pd <;> simp
        simp [assignAppend, getData, getNext, hsrc.1, insert_null, read_append_some _ hsrc.1, hpd]
        simpa using this

theorem headOr_append_of_ne_nil {l1 : List Nat} (l2 : List Nat) (nx : Ptr) (hne : l1 ≠ []) :
    headOr (l1 ++ l2) nx = headOr l1 none := by
  cases l1 with
  | nil => exact absurd rfl hne
  | cons a l1 => rfl

/-- What `assign` does to a destination chain and a disjoint source chain: the
destination keeps its first `min m n` nodes, which receive the first `min m n`
source values; the source chain is untouched. -/
theorem assign_seg {h : Heap T} {spv : Ptr} {das sas : List Nat} {dvs svs : List T}
    (hd : Seg h none das dvs none) (hsrc : Seg h spv sas svs none)
    (hdis : ∀ a ∈ das, a ∉ sas) :
    ∃ h', assign h (headOr das none) (headOr sas none) =
        some (h', headOr (das.take sas.length) none) ∧
      Seg h' none (das.take sas.length) (svs.take das.length) none ∧
      Seg h' spv sas svs none ∧
      (∀ a, a ∉ das → a < h.length → h'.read a = h.read a) := by
  have hdl := hd.length_eq
  have hsl := hsrc.length_eq
  obtain ⟨h1, he, hlen, hd1, hfr⟩ :=
    assignOverlap_seg hd hsrc hdis (h.length + 1) (by have := hd.length_le; omega)
  have hs1 : Seg h1 spv sas svs none := hsrc.frame fun a ha => hfr a fun hm => hdis a hm ha
  rcases Nat.lt_or_ge das.length sas.length with hlt | hge
  · -- the source is longer: detached nodes are allocated, the destination keeps its nodes
    have hdrop : das.drop sas.length = [] := List.drop_eq_nil_of_le (by omega)
    have htake : das.take sas.length = das := List.take_of_length_le (by omega)
    have hdv : dvs.drop sas.length = [] := List.drop_eq_nil_of_le (by omega)
    have hsuf : Seg h1 (lastOr spv (sas.take das.length)) (sas.drop das.length)
        (svs.drop das.length) none := by
      have := @Seg.suffix T h1 spv none (sas.take das.length) (sas.drop das.length) svs
        (by rw [List.take_append_drop]; exact hs1)
      simpa [Nat.min_eq_left (Nat.le_of_lt hlt)] using this
    have hne : headOr (sas.drop das.length) none ≠ none := by
      rw [List.drop_eq_getElem_cons hlt]; exact Option.some_ne_none _
    have happ := assignAppend_null hsuf (headOr das none) (h1.length + 1)
      (by have := hs1.length_le; simp; omega)
    refine ⟨h1 ++ (svs.drop das.length).map (fun v => some (Node.mk v none none)), ?_, ?_, ?_, ?_⟩
    · simp only [assign, he, hdrop, headOr_nil, htake]
      simp [hne, happ]
    · rw [htake]
      rw [hdv, List.append_nil] at hd1
      exact hd1.frame fun a ha => read_append_of_lt _ (hd1.mem_lt ha)
    · exact hs1.frame fun a ha => read_append_of_lt _ (hs1.mem_lt ha)
    · intro a ha hal
      rw [read_append_of_lt _ (by omega), hfr a ha]
  · -- the source is not longer: the surplus destination nodes are cleared
    have hsdrop : sas.drop das.length = [] := List.drop_eq_nil_of_le hge
    have hsv : svs.take das.length = svs := List.take_of_length_le (by omega)
    rw [hsv] at hd1 ⊢
    rcases hdr : das.drop sas.length with _ | ⟨d, rest⟩
    · have htake : das.take sas.length = das := by
        have := List.take_append_drop sas.length das
        rw [hdr, List.append_nil] at this
        exact this
      have hdv : dvs.drop sas.length = [] := by
        have : (das.drop sas.length).length = 0 := by rw [hdr]; rfl
        exact List.drop_eq_nil_of_le (by simp at this; omega)
      rw [hdv, List.append_nil] at hd1
      refine ⟨h1, ?_, ?_, hs1, ?_⟩
      · simp [assign, he, hdr, hsdrop, htake]
      · rw [htake]; exact hd1
      · intro a ha _; exact hfr a ha
    · have hdas : das.take sas.length ++ d :: rest = das := by
        rw [← hdr, List.take_append_drop]
      have hprelen : (das.take sas.length).length = svs.length := by
        rw [List.length_take]; omega
      have hrl : (das.drop sas.length).length = rest.length + 1 := by rw [hdr]; rfl
      rcases hdv : dvs.drop sas.length with _ | ⟨y, ys⟩
      · have : (dvs.drop sas.length).length = 0 := by rw [hdv]; rfl
        simp at this hrl
        omega
      rw [hdv] at hd1
      have hd1' : Seg h1 none (das.take sas.length ++ d :: rest) (svs ++ y :: ys) none := by
        rw [hdas]; exact hd1
      obtain ⟨hn1, hn2, hp1, hp2, hdj⟩ := nodup_split hd1'.nodup
      obtain ⟨s1, hp, s2⟩ := hd1'.split hprelen
      have st : Seg h1 (lastOr none (das.take sas.length)) (d :: rest) (y :: ys) none :=
        (seg_cons _ _ _ _ _ _ _).2 ⟨hp, s2⟩
      have hsub : ∀ a, a ∈ d :: rest → a ∈ das := by
        intro a ha; rw [← hdas]; exact List.mem_append_right _ ha
      have hpsub : ∀ a, a ∈ das.take sas.length → a ∈ das := by
        intro a ha; rw [← hdas]; exact List.mem_append_left _ ha
      rcases hq : lastOr none (das.take sas.length) with _ | q
      · -- nothing is retained: the root is reset
        have hpre : das.take sas.length = [] := by
          rcases eq_nil_or_snoc (das.take sas.length) with e | ⟨l, a, e⟩
          · exact e
          · rw [e, lastOr_concat] at hq; cases hq
        have hsv0 : svs = [] := by
          rw [hpre] at hprelen
          exact List.length_eq_zero.1 hprelen.symm
        obtain ⟨h3, hc, -, c1, c2⟩ := clear_seg st
        simp only [headOr_cons] at hc
        refine ⟨h3, ?_, ?_, ?_, ?_⟩
        · simp [assign, he, hdr, hsdrop, getPrev, hp, hq, hc, hpre]
        · simp [hpre, hsv0]
        · exact hs1.frame fun a ha => c2 a fun hm => hdis a (hsub a hm) ha
        · intro a ha _
          rw [c2 a fun hm => ha (hsub a hm), hfr a ha]
      · -- the last retained node becomes the tail, the rest is destroyed
        have hqm := lastOr_none_mem hq
        obtain ⟨qn, hqn⟩ := s1.mem_read hqm
        have hql := read_lt hqn
        have hqd : q ∉ d :: rest := by
          intro hm
          rcases List.mem_cons.1 hm with e | hm
          · exact hp1 (e ▸ hqm)
          · exact hdj q hqm hm
        have s1' : Seg (h1.set q (some { qn with pNext := none })) none (das.take sas.length)
            svs none := by
          refine s1.retarget_next none hn1 ?_ ?_
          · intro a _ hne
            exact read_set_ne _ fun e => hne (by rw [hq, e])
          · intro q' qn' hq' hqn'
            rw [hq] at hq'
            cases hq'
            rw [hqn] at hqn'
            cases hqn'
            exact read_set_self _ hql
        have st' : Seg (h1.set q (some { qn with pNext := none })) (some q) (d :: rest)
            (y :: ys) none := by
          rw [hq] at st
          exact st.frame fun a ha => read_set_ne _ fun e => hqd (e ▸ ha)
        obtain ⟨h3, hc, -, c1, c2⟩ := clear_seg st'
        simp only [headOr_cons] at hc
        have hpne : das.take sas.length ≠ [] := List.ne_nil_of_mem hqm
        refine ⟨h3, ?_, ?_, ?_, ?_⟩
        · have hroot : headOr das none = headOr (das.take sas.length) none := by
            rw [← hdas, headOr_append_of_ne_nil _ _ hpne, hdas]
          have hp' : h1.read d = some ⟨y, headOr rest none, some q⟩ := by rw [hp, hq]
          rw [← hroot]
          simp [assign, he, hdr, hsdrop, getPrev, hp', setNext, hqn, hc]
        · refine s1'.frame fun a ha => c2 a fun hm => ?_
          rcases List.mem_cons.1 hm with e | hm
          · exact hp1 (e ▸ ha)
          · exact hdj a ha hm
        · refine hs1.frame fun a ha => ?_
          rw [c2 a fun hm => hdis a (hsub a hm) ha]
          exact read_set_ne _ fun e => hdis q (hpsub q hqm) (e ▸ ha)
        · intro a ha _
          have hqa : q ≠ a := fun e => ha (e ▸ hpsub q hqm)
          rw [c2 a fun hm => ha (hsub a hm), read_set_ne _ hqa, hfr a ha]

/-! ## Chains addressed by index -/

theorem headOr_none_eq_head? (as : List Nat) : headOr as none = as.head? := by
  cases as <;> rfl

theorem headOr_drop (as : List Nat) (k : Nat) : headOr (as.drop k) none = as[k]? := by
  rw [headOr_none_eq_head?, List.head?_drop]

theorem headOr_take_append {as : List Nat} (l : List Nat) {i : Nat} (hi : 0 < i) (hne : as ≠ []) :
    headOr (as.take i ++ l) none = as.head? := by
  cases as with
  | nil => exact absurd rfl hne
  | cons a as =>
    cases i with
    | zero => omega
    | succ i => rfl

theorem Seg.at_index {h : Heap T} {pv nx : Ptr} {as : List Nat} {xs : List T}
    (hs : Seg h pv as xs nx) {i : Nat} (hi : i < as.length) :
    ∃ hx : i < xs.length,
      Seg h pv (as.take i ++ as[i] :: as.drop (i + 1)) (xs.take i ++ xs[i] :: xs.drop (i + 1)) nx ∧
      (as.take i).length = (xs.take i).length := by
  have hl := hs.length_eq
  have hx : i < xs.length := by omega
  refine ⟨hx, ?_, ?_⟩
  · rw [← List.drop_eq_getElem_cons hi, ← List.drop_eq_getElem_cons hx, List.take_append_drop,
      List.take_append_drop]
    exact hs
  · simp [List.length_take]; omega

theorem headOr_take_index {as : List Nat} (l : List Nat) {i : Nat} (hi : i < as.length) :
    headOr (as.take i ++ as[i] :: l) none = as.head? := by
  cases as with
  | nil => simp at hi
  | cons a as =>
    cases i with
    | zero => rfl
    | succ i => rfl

theorem appendAll_seg {h : Heap T} {as : List Nat} {p : Nat} {xs : List T} {x : T}
    (vs : List T) (hs : Seg h none (as ++ [p]) (xs ++ [x]) none) :
    ∃ h' bs, appendAll vs h (some p) = some (h', lastOr (some p) bs) ∧
      Seg h' none (as ++ p :: bs) (xs ++ x :: vs) none := by
  induction vs generalizing h as p xs x with
  | nil => exact ⟨h, [], rfl, hs⟩
  | cons v vs ih =>
    have hl : as.length = xs.length := by simpa using hs.length_eq
    obtain ⟨h1, he, hseg, -, -⟩ := insert_after_seg v hs hl
    have hseg' : Seg h1 none ((as ++ [p]) ++ [h.length]) ((xs ++ [x]) ++ [v]) none := by
      simpa using hseg
    obtain ⟨h', bs, he', hseg2⟩ := ih hseg'
    refine ⟨h', h.length :: bs, ?_, by simpa using hseg2⟩
    simp [appendAll, he, he']

/-! ## The claims -/

/-- C9: on a well-formed chain `as` of length `n`, `size` of the empty reference is 0
and `size` started at the node of index `i` is `n - i`, the number of nodes
reachable through `pNext`, whether or not the start is the head. `size` only
reads the heap: it returns the count and no heap. -/
theorem size_counts_reachable (h : Heap T) (as : List Nat) (xs : List T)
    (hs : Seg h none as xs none) :
    size h none = some 0 ∧
      ∀ (i : Nat) (hi : i < as.length), size h (some as[i]) = some (as.length - i) := by
  refine ⟨rfl, fun i hi => ?_⟩
  have hsuf := @Seg.suffix T h none none (as.take i) (as.drop i) xs
    (by rw [List.take_append_drop]; exact hs)
  have hsz := size_seg hsuf
  have e : headOr (as.drop i) none = some as[i] := by
    rw [List.drop_eq_getElem_cons hi]; rfl
  rw [e, List.length_drop] at hsz
  exact hsz

theorem size_counts_reachable_witness :
    Seg chain123 none [0, 1, 2] [1, 2, 3] none ∧ size chain123 (some 1) = some 2 :=
  ⟨⟨rfl, rfl, rfl, trivial⟩,
    (size_counts_reachable chain123 [0, 1, 2] [1, 2, 3] ⟨rfl, rfl, rfl, trivial⟩).2 1 (by decide)⟩

/-- C8: on a chain whose nodes are linked through `pNext` from the root down to a
null link, `clear` terminates with the root reference null, `size` of that
reference is then 0, exactly the nodes of the chain are deallocated and every other
cell of the heap is untouched; on a null root the heap is returned unchanged. -/
theorem clear_frees_chain (h : Heap T) (pv : Ptr) (as : List Nat) (xs : List T)
    (hs : Seg h pv as xs none) :
    clear h none = some (h, none) ∧
    ∃ h', clear h as.head? = some (h', none) ∧
      size h' none = some 0 ∧
      (∀ a, a ∈ as → h.read a ≠ none ∧ h'.read a = none) ∧
      (∀ a, a ∉ as → h'.read a = h.read a) := by
  refine ⟨rfl, ?_⟩
  obtain ⟨h', he, -, c1, c2⟩ := clear_seg hs
  rw [headOr_none_eq_head?] at he
  refine ⟨h', he, rfl, fun a ha => ⟨?_, c1 a ha⟩, c2⟩
  obtain ⟨n, hn⟩ := hs.mem_read ha
  rw [hn]
  exact Option.some_ne_none _

theorem clear_frees_chain_witness :
    Seg chain123 none [0, 1, 2] [1, 2, 3] none ∧
      ∃ h', clear chain123 (some 0) = some (h', none) ∧ size h' none = some 0 ∧
        h'.read 0 = none ∧ h'.read 1 = none ∧ h'.read 2 = none := by
  refine ⟨⟨rfl, rfl, rfl, trivial⟩, ?_⟩
  obtain ⟨-, h', he, hz, hfree, -⟩ :=
    clear_frees_chain chain123 none [0, 1, 2] [1, 2, 3] ⟨rfl, rfl, rfl, trivial⟩
  exact ⟨h', he, hz, (hfree 0 (by decide)).2, (hfree 1 (by decide)).2, (hfree 2 (by decide)).2⟩

/-- C3: removing the node of index `i` from a well-formed chain deallocates that
node, keeps the data of every other node, and leaves a chain whose forward
traversal from its head (the former second node when `i = 0`) is the original
value sequence without the element of index `i`; the size drops by one. -/
theorem remove_deletes_element (h : Heap T) (as : List Nat) (xs : List T) (i : Nat)
    (hs : Seg h none as xs none) (hi : i < as.length) :
    ∃ h' ret, remove h (some as[i]) = some (h', ret) ∧
      h'.read as[i] = none ∧
      (∀ a m, a ≠ as[i] → h.read a = some m → (h'.read a).map Node.data = some m.data) ∧
      traverse h' (if i = 0 then as[1]? else as.head?) = some (xs.eraseIdx i) ∧
      size h as.head? = some as.length ∧
      size h' (if i = 0 then as[1]? else as.head?) = some (as.length - 1) := by
  obtain ⟨hx, hs', hl⟩ := hs.at_index hi
  obtain ⟨h', he, -, hfree, hseg, -, hdata⟩ := remove_seg hs' hl
  have hhead : headOr (as.take i ++ as.drop (i + 1)) none =
      if i = 0 then as[1]? else as.head? := by
    rcases Nat.eq_zero_or_pos i with rfl | hpos
    · rw [if_pos rfl]; exact headOr_drop as 1
    · rw [headOr_take_append _ hpos (List.ne_nil_of_length_pos (by omega)), if_neg (by omega)]
  have ht := traverse_seg hseg
  have hz := size_seg hseg
  rw [hhead] at ht hz
  rw [← List.eraseIdx_eq_take_drop_succ] at ht
  refine ⟨h', _, he, hfree, hdata, ht, ?_, ?_⟩
  · rw [← headOr_none_eq_head?]; exact size_seg hs
  · rw [hz]; simp [List.length_take, List.length_drop]; omega

theorem remove_deletes_element_witness :
    Seg chain123 none [0, 1, 2] [1, 2, 3] none ∧
      ∃ h', remove chain123 (some 1) = some (h', some 0) ∧ traverse h' (some 0) = some [1, 3] := by
  refine ⟨⟨rfl, rfl, rfl, trivial⟩, ?_⟩
  obtain ⟨h', ret, he, -, -, ht, -, -⟩ :=
    remove_deletes_element chain123 [0, 1, 2] [1, 2, 3] 1 ⟨rfl, rfl, rfl, trivial⟩ (by decide)
  have he : remove chain123 (some 1) = some (h', ret) := he
  have hret : ret = some 0 := by
    have e : remove chain123 (some 1) = some
        ([some ⟨1, some 2, none⟩, none, some ⟨3, none, some 0⟩], some 0) := by decide
    rw [e] at he
    cases he
    rfl
  subst hret
  exact ⟨h', he, ht⟩

/-- C4: `remove` of the null reference returns null and the unchanged heap; on an
allocated node whose non-null neighbours are allocated it returns the node's
`pPrev` when that is not null and its `pNext` otherwise. Removing the sole node of
a chain returns null and leaves the node deallocated; removing the head of a chain
of two or more nodes returns the former second node, whose `pPrev` is then null. -/
theorem remove_result (h : Heap T) :
    remove h none = some (h, none) ∧
    (∀ r rn, h.read r = some rn →
      (∀ q, rn.pPrev = some q → ∃ qn, h.read q = some qn) →
      (∀ q, rn.pNext = some q → ∃ qn, h.read q = some qn) →
      ∃ h', remove h (some r) = some (h', if rn.pPrev = none then rn.pNext else rn.pPrev)) ∧
    (∀ a x, Seg h none [a] [x] none →
      ∃ h', remove h (some a) = some (h', none) ∧ h'.read a = none) ∧
    (∀ a b as x y xs, Seg h none (a :: b :: as) (x :: y :: xs) none →
      ∃ h' bn, remove h (some a) = some (h', some b) ∧ h'.read b = some bn ∧
        bn.pPrev = none) := by
  refine ⟨rfl, fun r rn hr hp hn => remove_returns hr hp hn, ?_, ?_⟩
  · intro a x hs
    obtain ⟨h', he, -, hfree, -, -, -⟩ :=
      @remove_seg T h [] [] a [] [] x hs rfl
    exact ⟨h', by simpa using he, hfree⟩
  · intro a b as x y xs hs
    obtain ⟨h', he, -, -, hseg, -, -⟩ :=
      @remove_seg T h [] (b :: as) a [] (y :: xs) x hs rfl
    simp only [List.nil_append, seg_cons] at hseg
    exact ⟨h', _, by simpa using he, hseg.1, rfl⟩

theorem remove_result_witness :
    Seg chain123 none [0, 1, 2] [1, 2, 3] none ∧
      ∃ h' bn, remove chain123 (some 0) = some (h', some 1) ∧ h'.read 1 = some bn ∧
        bn.pPrev = none :=
  ⟨⟨rfl, rfl, rfl, trivial⟩,
    (remove_result chain123).2.2.2 0 1 [2] 1 2 [3] ⟨rfl, rfl, rfl, trivial⟩⟩

/-- C5: `insert` before the node of index `i` of a well-formed chain returns a node
`n` that was not allocated before and holds `v`, with `n.pNext` the position,
`n.pPrev` the position's old `pPrev` and the position's `pPrev` now `n`; no
existing node's data changes; forward traversal from the head of the chain (from
`n` when `i = 0`) yields the values with `v` inserted at index `i`. -/
theorem insert_before_spec (h : Heap T) (as : List Nat) (xs : List T) (i : Nat) (v : T)
    (hs : Seg h none as xs none) (hi : i < as.length) :
    ∃ h' n pn, insert h (some as[i]) v false = some (h', some n) ∧
      h.read n = none ∧
      h.read as[i] = some pn ∧
      h'.read n = some ⟨v, some as[i], pn.pPrev⟩ ∧
      (h'.read as[i]).map Node.pPrev = some (some n) ∧
      (∀ a m, h.read a = some m → (h'.read a).map Node.data = some m.data) ∧
      traverse h' (if i = 0 then some n else as.head?) = some (xs.take i ++ v :: xs.drop i) := by
  obtain ⟨hx, hs', hl⟩ := hs.at_index hi
  obtain ⟨h', he, hseg, -, hdata⟩ := insert_before_seg v hs' hl
  obtain ⟨-, hp, -⟩ := hs'.split hl
  obtain ⟨-, hn, hrest⟩ := hseg.split hl
  simp only [seg_cons, headOr_cons] at hrest hn
  have hhead : headOr (as.take i ++ h.length :: as[i] :: as.drop (i + 1)) none =
      if i = 0 then some h.length else as.head? := by
    rcases Nat.eq_zero_or_pos i with rfl | hpos
    · rfl
    · rw [headOr_take_append _ hpos (List.ne_nil_of_length_pos (by omega)), if_neg (by omega)]
  have ht := traverse_seg hseg
  rw [hhead, ← List.drop_eq_getElem_cons hx] at ht
  refine ⟨h', h.length, _, he, read_ge (Nat.le_refl _), hp, hn, ?_, hdata, ht⟩
  rw [hrest.1]
  rfl

theorem insert_before_spec_witness :
    Seg chain123 none [0, 1, 2] [1, 2, 3] none ∧
      ∃ h', insert chain123 (some 1) 9 false = some (h', some 3) ∧
        traverse h' (some 0) = some [1, 9, 2, 3] := by
  refine ⟨⟨rfl, rfl, rfl, trivial⟩, ?_⟩
  obtain ⟨h', n, pn, he, -, -, -, -, -, ht⟩ :=
    insert_before_spec chain123 [0, 1, 2] [1, 2, 3] 1 9 ⟨rfl, rfl, rfl, trivial⟩ (by decide)
  have he : insert chain123 (some 1) 9 false = some (h', some n) := he
  have hn : n = 3 := by
    have e : (insert chain123 (some 1) 9 false).map Prod.snd = some (some 3) := by decide
    rw [he] at e
    simpa using e
  subst hn
  exact ⟨h', he, ht⟩

/-- C6: `insert` after the node of index `i` of a well-formed chain returns a node
`n` that was not allocated before and holds `v`, with `n.pPrev` the position,
`n.pNext` the position's old `pNext`, the position's `pNext` now `n` and, when
the old next node exists, its `pPrev` now `n`; no existing node's data changes;
forward traversal from the unchanged head yields the values with `v` inserted at
index `i + 1`. -/
theorem insert_after_spec (h : Heap T) (as : List Nat) (xs : List T) (i : Nat) (v : T)
    (hs : Seg h none as xs none) (hi : i < as.length) :
    ∃ h' n pn, insert h (some as[i]) v true = some (h', some n) ∧
      h.read n = none ∧
      h.read as[i] = some pn ∧
      h'.read n = some ⟨v, pn.pNext, some as[i]⟩ ∧
      (h'.read as[i]).map Node.pNext = some (some n) ∧
      (∀ q, pn.pNext = some q → (h'.read q).map Node.pPrev = some (some n)) ∧
      (∀ a m, h.read a = some m → (h'.read a).map Node.data = some m.data) ∧
      traverse h' as.head? = some (xs.take (i + 1) ++ v :: xs.drop (i + 1)) := by
  obtain ⟨hx, hs', hl⟩ := hs.at_index hi
  obtain ⟨h', he, hseg, -, hdata⟩ := insert_after_seg v hs' hl
  obtain ⟨-, hp, -⟩ := hs'.split hl
  obtain ⟨-, hpos, hrest⟩ := hseg.split hl
  simp only [seg_cons, headOr_cons] at hrest hpos
  have ht := traverse_seg hseg
  rw [headOr_take_index _ hi] at ht
  have hv : xs.take i ++ xs[i] :: v :: xs.drop (i + 1) =
      xs.take (i + 1) ++ v :: xs.drop (i + 1) := by
    rw [← List.take_concat_get' xs i hx, List.append_assoc]; rfl
  rw [hv] at ht
  refine ⟨h', h.length, _, he, read_ge (Nat.le_refl _), hp, hrest.1, ?_, ?_, hdata, ht⟩
  · rw [hpos]; rfl
  · intro q hq
    have hq' : headOr (as.drop (i + 1)) none = some q := hq
    rcases hdr : as.drop (i + 1) with _ | ⟨b, bs⟩
    · rw [hdr] at hq'; cases hq'
    · rw [hdr] at hq'
      cases hq'
      have h2 := hrest.2
      rw [hdr] at h2
      rcases hxs : xs.drop (i + 1) with _ | ⟨y, ys⟩
      · rw [hxs] at h2; simp [Seg] at h2
      · rw [hxs] at h2
        simp only [seg_cons] at h2
        rw [h2.1]
        rfl

theorem insert_after_spec_witness :
    Seg chain123 none [0, 1, 2] [1, 2, 3] none ∧
      ∃ h', insert chain123 (some 1) 9 true = some (h', some 3) ∧
        traverse h' (some 0) = some [1, 2, 9, 3] := by
  refine ⟨⟨rfl, rfl, rfl, trivial⟩, ?_⟩
  obtain ⟨h', n, pn, he, -, -, -, -, -, -, ht⟩ :=
    insert_after_spec chain123 [0, 1, 2] [1, 2, 3] 1 9 ⟨rfl, rfl, rfl, trivial⟩ (by decide)
  have he : insert chain123 (some 1) 9 true = some (h', some n) := he
  have hn : n = 3 := by
    have e : (insert chain123 (some 1) 9 true).map Prod.snd = some (some 3) := by decide
    rw [he] at e
    simpa using e
  subst hn
  exact ⟨h', he, ht⟩

/-- C7: building a chain from the values `vs`, the first by `insert` at the null
position (with either value of the flag) and each following one by `insert` in
after mode at the node the previous call returned, gives a chain whose `size` from
the first node is the number of values and whose forward traversal from the first
node is `vs` in insertion order; `insert` at the null position returns a node that
was not allocated before and has both links null, whatever the flag. -/
theorem build_by_append (h : Heap T) (after : Bool) (vs : List T) :
    (∃ h' first, build h after vs = some (h', first) ∧
      size h' first = some vs.length ∧ traverse h' first = some vs) ∧
    (∀ v : T, ∃ h' n, insert h none v after = some (h', some n) ∧
      h.read n = none ∧ h'.read n = some ⟨v, none, none⟩) := by
  constructor
  · cases vs with
    | nil => exact ⟨h, none, rfl, rfl, rfl⟩
    | cons v vs =>
      have hs0 : Seg (h ++ [some ⟨v, none, none⟩]) none ([] ++ [h.length]) ([] ++ [v]) none := by
        simp [read_append_length]
      obtain ⟨h', bs, he, hseg⟩ := appendAll_seg vs hs0
      refine ⟨h', some h.length, ?_, ?_, ?_⟩
      · simp [build, insert_null, he]
      · have hlen : bs.length = vs.length := by simpa using hseg.length_eq
        have hz := size_seg hseg
        simp only [List.nil_append, headOr_cons, List.length_cons, hlen] at hz
        exact hz
      · simpa using traverse_seg hseg
  · intro v
    exact ⟨_, h.length, insert_null h v after, read_ge (Nat.le_refl _), read_append_length _ _⟩

/-- C10: on a well-formed destination chain whose root is its head and a disjoint
well-formed source chain, `assign` called twice in a row with the same source
succeeds both times and the forward value sequence of the destination after the
second call is the one after the first call. -/
theorem assign_idempotent (h : Heap T) (spv : Ptr) (das sas : List Nat) (dvs svs : List T)
    (hd : Seg h none das dvs none) (hsrc : Seg h spv sas svs none)
    (hdis : ∀ a ∈ das, a ∉ sas) :
    ∃ h1 r1 h2 r2 ys, assign h das.head? sas.head? = some (h1, r1) ∧
      assign h1 r1 sas.head? = some (h2, r2) ∧
      traverse h1 r1 = some ys ∧ traverse h2 r2 = some ys := by
  obtain ⟨h1, he1, d1, s1, -⟩ := assign_seg hd hsrc hdis
  have hdis1 : ∀ a ∈ das.take sas.length, a ∉ sas := fun a ha =>
    hdis a (List.mem_of_mem_take ha)
  obtain ⟨h2, he2, d2, -, -⟩ := assign_seg d1 s1 hdis1
  have hsl := hsrc.length_eq
  have hv : svs.take (das.take sas.length).length = svs.take das.length := by
    rw [List.length_take]
    rcases Nat.le_total sas.length das.length with hle | hle
    · rw [Nat.min_eq_left hle, List.take_of_length_le (by omega),
        List.take_of_length_le (by omega)]
    · rw [Nat.min_eq_right hle]
  rw [hv] at d2
  rw [headOr_none_eq_head? das, headOr_none_eq_head? sas] at he1
  rw [headOr_none_eq_head? sas] at he2
  exact ⟨h1, _, h2, _, svs.take das.length, he1, he2, traverse_seg d1, traverse_seg d2⟩

theorem assign_idempotent_witness :
    (Seg chain123and7 none [0, 1, 2] [1, 2, 3] none ∧ Seg chain123and7 none [3] [7] none) ∧
      ∃ h1 r1 h2 r2 ys, assign chain123and7 (some 0) (some 3) = some (h1, r1) ∧
        assign h1 r1 (some 3) = some (h2, r2) ∧
        traverse h1 r1 = some ys ∧ traverse h2 r2 = some ys :=
  ⟨⟨⟨rfl, rfl, rfl, trivial⟩, ⟨rfl, trivial⟩⟩,
    assign_idempotent chain123and7 none [0, 1, 2] [3] [1, 2, 3] [7]
      ⟨rfl, rfl, rfl, trivial⟩ ⟨rfl, trivial⟩ (by decide)⟩

/-- C1, at the empty destination and the source `[5, 6, 7]`: `assign` returns with
the destination root still null, so forward traversal of the destination yields
no value while the source yields 5, 6, 7; the three nodes it allocated have both
links null and are referenced by nothing. -/
theorem assign_longer_source_loses_values :
    assign chain567 none (some 0) =
      some (chain567 ++ [some ⟨5, none, none⟩, some ⟨6, none, none⟩, some ⟨7, none, none⟩],
        none) ∧
    traverse chain567 (some 0) = some [5, 6, 7] ∧
    (assign chain567 none (some 0)).bind (fun r => traverse r.1 r.2) = some [] ∧
    (assign chain567 none (some 0)).bind (fun r => size r.1 r.2) = some 0 := by
  decide

/-- C2, at the source `[1, 2, 3]`: `copy` returns the node created first, which is
the last node of the chain it built, so forward traversal from the returned node
yields only the first value and `size` of the result is 1, while the source has
three values. -/
theorem copy_returns_last_node :
    (copy chain123 (some 0)).map Prod.snd = some (some 3) ∧
    traverse chain123 (some 0) = some [1, 2, 3] ∧
    (copy chain123 (some 0)).bind (fun r => traverse r.1 r.2) = some [1] ∧
    (copy chain123 (some 0)).bind (fun r => size r.1 r.2) = some 1 ∧
    size chain123 (some 0) = some 3 := by
  decide

/-! ## More on segments -/

theorem Seg.read_eq {h h' : Heap T} {pv nx : Ptr} {as : List Nat} {xs : List T}
    (hs : Seg h pv as xs nx) (hs' : Seg h' pv as xs nx) {a : Nat} (ha : a ∈ as) :
    h'.read a = h.read a := by
  induction as generalizing pv xs with
  | nil => simp at ha
  | cons b as ih => cases xs with
    | nil => simp [Seg] at hs
    | cons v vs =>
      simp only [seg_cons] at hs hs'
      rcases List.mem_cons.1 ha with rfl | ha
      · rw [hs.1, hs'.1]
      · exact ih hs.2 hs'.2 ha

theorem set_read_self {h : Heap T} {a : Nat} {n : Node T} (hr : h.read a = some n) :
    h.set a (some n) = h := by
  have hl := read_lt hr
  apply List.ext_getElem?
  intro i
  by_cases hi : a = i
  · subst hi
    rw [List.getElem?_set_self hl]
    cases hg : h[a]? with
    | none => simp [Heap.read, hg] at hr
    | some c => simp [Heap.read, hg] at hr; rw [hr]
  · rw [List.getElem?_set_ne hi]

theorem assignOverlap_self {h : Heap T} {pv : Ptr} {as : List Nat} {xs : List T}
    (hs : Seg h pv as xs none) (fuel : Nat) (hf : as.length ≤ fuel) :
    assignOverlap fuel h (headOr as none) (headOr as none) = some (h, none, none) := by
  induction as generalizing pv xs fuel with
  | nil => cases fuel <;> simp [assignOverlap]
  | cons a as ih => cases xs with
    | nil => simp [Seg] at hs
    | cons v vs =>
      simp only [seg_cons] at hs
      cases fuel with
      | zero => simp at hf
      | succ fuel =>
        simp at hf
        have := ih hs.2 fuel hf
        simp [assignOverlap, getData, setData, getNext, hs.1, set_read_self hs.1, this]
theorem remove_insert_seg {h : Heap T} {pre post : List Nat} {p : Nat} {xs1 xs2 : List T}
    {x : T} (v : T) (hs : Seg h none (pre ++ p :: post) (xs1 ++ x :: xs2) none)
    (hl : pre.length = xs1.length) :
    (∃ h1 h2, insert h (some p) v true = some (h1, some h.length) ∧
      remove h1 (some h.length) = some (h2, some p) ∧ ∀ a, h2.read a = h.read a) ∧
    (∃ h1 h2, insert h (some p) v false = some (h1, some h.length) ∧
      remove h1 (some h.length) =
        some (h2, if lastOr none pre = none then some p else lastOr none pre) ∧
      ∀ a, h2.read a = h.read a) := by
  have hnone : h.read h.length = none := read_ge (Nat.le_refl _)
  constructor
  · obtain ⟨h1, he, hseg, hfr1, -⟩ := insert_after_seg v hs hl
    have hseg' : Seg h1 none ((pre ++ [p]) ++ h.length :: post)
        ((xs1 ++ [x]) ++ v :: xs2) none := by
      simpa using hseg
    obtain ⟨h2, he2, -, hfree, hseg2, hfr2, -⟩ := remove_seg hseg' (by simpa using hl)
    have hseg2' : Seg h2 none (pre ++ p :: post) (xs1 ++ x :: xs2) none := by
      simpa using hseg2
    refine ⟨h1, h2, he, ?_, fun a => ?_⟩
    · rw [he2, lastOr_concat]; simp
    · by_cases ha : a = h.length
      · rw [ha, hfree, hnone]
      · by_cases hm : a ∈ pre ++ p :: post
        · exact hs.read_eq hseg2' hm
        · rw [hfr2 a (by simpa [ha] using hm), hfr1 a hm ha]
  · obtain ⟨h1, he, hseg, hfr1, -⟩ := insert_before_seg v hs hl
    obtain ⟨h2, he2, -, hfree, hseg2, hfr2, -⟩ := remove_seg hseg hl
    refine ⟨h1, h2, he, ?_, fun a => ?_⟩
    · rw [he2]; rfl
    · by_cases ha : a = h.length
      · rw [ha, hfree, hnone]
      · by_cases hm : a ∈ pre ++ p :: post
        · exact hs.read_eq hseg2 hm
        · rw [hfr2 a (by simpa [ha] using hm), hfr1 a hm ha]

/-! ## The shape of the heap after `assign` -/

theorem SameLinks.refl (h : Heap T) : SameLinks h h := ⟨rfl, fun _ => rfl⟩

theorem SameLinks.trans {h h1 h2 : Heap T} (h12 : SameLinks h h1) (h23 : SameLinks h1 h2) :
    SameLinks h h2 :=
  ⟨h23.1.trans h12.1, fun a => (h23.2 a).trans (h12.2 a)⟩

theorem SameLinks.set_data {h : Heap T} {d : Nat} {n : Node T} (hr : h.read d = some n)
    (v : T) : SameLinks h (h.set d (some { n with data := v })) := by
  refine ⟨by simp, fun a => ?_⟩
  by_cases ha : d = a
  · subst ha
    rw [read_set_self _ (read_lt hr), hr]
    rfl
  · rw [read_set_ne _ ha]

theorem SameLinks.seg_shape {h h' : Heap T} (hl : SameLinks h h') {pv nx : Ptr} {as : List Nat}
    {xs : List T} (hs : Seg h pv as xs nx) : ∃ xs', Seg h' pv as xs' nx := by
  induction as generalizing pv xs with
  | nil => exact ⟨[], by simp⟩
  | cons a as ih => cases xs with
    | nil => simp [Seg] at hs
    | cons v vs =>
      simp only [seg_cons] at hs
      obtain ⟨xs', hxs⟩ := ih hs.2
      have h2 := hl.2 a
      rw [hs.1] at h2
      cases hr : h'.read a with
      | none => rw [hr] at h2; simp at h2
      | some n =>
        rw [hr] at h2
        simp at h2
        refine ⟨n.data :: xs', ?_⟩
        simp only [seg_cons]
        refine ⟨?_, hxs⟩
        cases n
        simp only at h2
        obtain ⟨e1, e2⟩ := h2
        subst e1 e2
        exact hr

theorem assignOverlap_shape {h : Heap T} {dpv spv : Ptr} {das sas : List Nat}
    {dvs svs : List T} (hd : Seg h dpv das dvs none) (hsrc : Seg h spv sas svs none)
    (fuel : Nat) (hf : das.length ≤ fuel) :
    ∃ h1, assignOverlap fuel h (headOr das none) (headOr sas none) =
        some (h1, headOr (das.drop sas.length) none, headOr (sas.drop das.length) none) ∧
      SameLinks h h1 ∧
      (∀ a, a ∉ das → h1.read a = h.read a) := by
  induction das generalizing dpv spv sas dvs svs fuel h with
  | nil =>
    exact ⟨h, by cases fuel <;> simp [assignOverlap], SameLinks.refl h, by simp⟩
  | cons d das ih =>
    cases dvs with
    | nil => simp [Seg] at hd
    | cons dv dvs =>
    cases sas with
    | nil =>
      exact ⟨h, by cases fuel <;> simp [assignOverlap], SameLinks.refl h, by simp⟩
    | cons s sas =>
      cases svs with
      | nil => simp [Seg] at hsrc
      | cons sv svs =>
        simp only [seg_cons] at hd hsrc
        cases fuel with
        | zero => simp at hf
        | succ fuel =>
          simp at hf
          have hdl := read_lt hd.1
          have hsl1 : SameLinks h (h.set d (some ⟨sv, headOr das none, dpv⟩)) :=
            SameLinks.set_data hd.1 sv
          obtain ⟨dvs', hd2⟩ := hsl1.seg_shape hd.2
          obtain ⟨svs', hs2⟩ := hsl1.seg_shape hsrc.2
          have hnext : getNext (h.set d (some ⟨sv, headOr das none, dpv⟩)) s =
              some (headOr sas none) := by
            have := hsl1.2 s
            rw [hsrc.1] at this
            unfold getNext
            cases hr : Heap.read (h.set d (some ⟨sv, headOr das none, dpv⟩)) s with
            | none => rw [hr] at this; simp at this
            | some n => rw [hr] at this; simp at this; simp [this.1]
          obtain ⟨h1, he, hl1, r2⟩ := ih hd2 hs2 fuel hf
          refine ⟨h1, ?_, hsl1.trans hl1, ?_⟩
          · simp [assignOverlap, getData, setData, hd.1, hsrc.1, hnext]
            simp [getNext, read_set_self _ hdl, he]
          · intro b hb
            simp at hb
            rw [r2 b hb.2, read_set_ne _ (Ne.symm hb.1)]

theorem read_append_detached (h : Heap T) (vs : List T) {a : Nat} (h1 : h.length ≤ a)
    (h2 : a < h.length + vs.length) :
    ∃ v, Heap.read (h ++ vs.map (fun v => some (Node.mk v none none))) a =
      some ⟨v, none, none⟩ := by
  have hk : a - h.length < vs.length := by omega
  refine ⟨vs.get ⟨a - h.length, hk⟩, ?_⟩
  simp [Heap.read, List.getElem?_append_right h1, List.getElem?_map,
    List.getElem?_eq_getElem hk]
/-- The structure of the heap after `assign`, for a destination chain with head root
and a source segment that may share nodes with it: the destination keeps its
first `min m n` nodes, its other nodes are destroyed, every cell outside the
destination chain is untouched and the new cells are detached nodes. -/
theorem assign_shape {h : Heap T} {spv : Ptr} {das sas : List Nat} {dvs svs : List T}
    (hd : Seg h none das dvs none) (hsrc : Seg h spv sas svs none) :
    ∃ h', assign h (headOr das none) (headOr sas none) =
        some (h', headOr (das.take sas.length) none) ∧
      (∃ vs', Seg h' none (das.take sas.length) vs' none) ∧
      h'.length = h.length + (sas.length - das.length) ∧
      (∀ a, a ∈ das.drop sas.length → h'.read a = none) ∧
      (∀ a, a ∉ das → a < h.length → h'.read a = h.read a) ∧
      (∀ a, h.length ≤ a → a < h'.length → ∃ v, h'.read a = some ⟨v, none, none⟩) := by
  obtain ⟨h1, he, hsl, hfr⟩ :=
    assignOverlap_shape hd hsrc (h.length + 1) (by have := hd.length_le; omega)
  have hlen := hsl.1
  obtain ⟨dvs1, hd1⟩ := hsl.seg_shape hd
  obtain ⟨svs1, hs1⟩ := hsl.seg_shape hsrc
  have hdl := hd1.length_eq
  have hsl' := hs1.length_eq
  rcases Nat.lt_or_ge das.length sas.length with hlt | hge
  · -- the source is longer: detached nodes are allocated, the destination keeps its nodes
    have hdrop : das.drop sas.length = [] := List.drop_eq_nil_of_le (by omega)
    have htake : das.take sas.length = das := List.take_of_length_le (by omega)
    have hsuf : Seg h1 (lastOr spv (sas.take das.length)) (sas.drop das.length)
        (svs1.drop das.length) none := by
      have := @Seg.suffix T h1 spv none (sas.take das.length) (sas.drop das.length) svs1
        (by rw [List.take_append_drop]; exact hs1)
      simpa [Nat.min_eq_left (Nat.le_of_lt hlt)] using this
    have hne : headOr (sas.drop das.length) none ≠ none := by
      rw [List.drop_eq_getElem_cons hlt]; exact Option.some_ne_none _
    have happ := assignAppend_null hsuf (headOr das none) (h1.length + 1)
      (by have := hs1.length_le; simp; omega)
    have hnl : (h1 ++ (svs1.drop das.length).map (fun v => some (Node.mk v none none))).length
        = h.length + (sas.length - das.length) := by
      simp [hlen]; omega
    refine ⟨h1 ++ (svs1.drop das.length).map (fun v => some (Node.mk v none none)),
      ?_, ?_, hnl, ?_, ?_, ?_⟩
    · simp only [assign, he, hdrop, headOr_nil, htake]
      simp [hne, happ]
    · rw [htake]
      exact ⟨dvs1, hd1.frame fun a ha => read_append_of_lt _ (hd1.mem_lt ha)⟩
    · intro a ha; rw [hdrop] at ha; simp at ha
    · intro a ha hal
      rw [read_append_of_lt _ (by omega), hfr a ha]
    · intro a h1a h2a
      rw [hnl] at h2a
      exact read_append_detached h1 _ (by omega) (by simp; omega)
  · -- the source is not longer: the surplus destination nodes are cleared
    have hsdrop : sas.drop das.length = [] := List.drop_eq_nil_of_le hge
    have hz : sas.length - das.length = 0 := by omega
    rw [hz, Nat.add_zero]
    rcases hdr : das.drop sas.length with _ | ⟨d, rest⟩
    · have htake : das.take sas.length = das := by
        have := List.take_append_drop sas.length das
        rw [hdr, List.append_nil] at this
        exact this
      refine ⟨h1, ?_, ?_, hlen, ?_, ?_, ?_⟩
      · simp [assign, he, hdr, hsdrop, htake]
      · rw [htake]; exact ⟨dvs1, hd1⟩
      · intro a ha; simp at ha
      · intro a ha _; exact hfr a ha
      · intro a h1a h2a; omega
    · have hdas : das.take sas.length ++ d :: rest = das := by
        rw [← hdr, List.take_append_drop]
      have hprelen : (das.take sas.length).length = (dvs1.take sas.length).length := by
        rw [List.length_take, List.length_take]; omega
      have hrl : (das.drop sas.length).length = rest.length + 1 := by rw [hdr]; rfl
      rcases hdv : dvs1.drop sas.length with _ | ⟨y, ys⟩
      · have : (dvs1.drop sas.length).length = 0 := by rw [hdv]; rfl
        simp at this hrl
        omega
      have hd1' : Seg h1 none (das.take sas.length ++ d :: rest)
          (dvs1.take sas.length ++ y :: ys) none := by
        rw [hdas, ← hdv, List.take_append_drop]; exact hd1
      obtain ⟨hn1, hn2, hp1, hp2, hdj⟩ := nodup_split hd1'.nodup
      obtain ⟨s1, hp, s2⟩ := hd1'.split hprelen
      have st : Seg h1 (lastOr none (das.take sas.length)) (d :: rest) (y :: ys) none :=
        (seg_cons _ _ _ _ _ _ _).2 ⟨hp, s2⟩
      have hsub : ∀ a, a ∈ d :: rest → a ∈ das := by
        intro a ha; rw [← hdas]; exact List.mem_append_right _ ha
      have hpsub : ∀ a, a ∈ das.take sas.length → a ∈ das := by
        intro a ha; rw [← hdas]; exact List.mem_append_left _ ha
      rcases hq : lastOr none (das.take sas.length) with _ | q
      · -- nothing is retained: the root is reset
        have hpre : das.take sas.length = [] := by
          rcases eq_nil_or_snoc (das.take sas.length) with e | ⟨l, a, e⟩
          · exact e
          · rw [e, lastOr_concat] at hq; cases hq
        obtain ⟨h3, hc, hl3, c1, c2⟩ := clear_seg st
        simp only [headOr_cons] at hc
        refine ⟨h3, ?_, ?_, by omega, c1, ?_, ?_⟩
        · simp [assign, he, hdr, hsdrop, getPrev, hp, hq, hc, hpre]
        · exact ⟨[], by simp [hpre]⟩
        · intro a ha _
          rw [c2 a fun hm => ha (hsub a hm), hfr a ha]
        · intro a h1a h2a; omega
      · -- the last retained node becomes the tail, the rest is destroyed
        have hqm := lastOr_none_mem hq
        obtain ⟨qn, hqn⟩ := s1.mem_read hqm
        have hql := read_lt hqn
        have hqd : q ∉ d :: rest := by
          intro hm
          rcases List.mem_cons.1 hm with e | hm
          · exact hp1 (e ▸ hqm)
          · exact hdj q hqm hm
        have s1' : Seg (h1.set q (some { qn with pNext := none })) none (das.take sas.length)
            (dvs1.take sas.length) none := by
          refine s1.retarget_next none hn1 ?_ ?_
          · intro a _ hne
            exact read_set_ne _ fun e => hne (by rw [hq, e])
          · intro q' qn' hq' hqn'
            rw [hq] at hq'
            cases hq'
            rw [hqn] at hqn'
            cases hqn'
            exact read_set_self _ hql
        have st' : Seg (h1.set q (some { qn with pNext := none })) (some q) (d :: rest)
            (y :: ys) none := by
          rw [hq] at st
          exact st.frame fun a ha => read_set_ne _ fun e => hqd (e ▸ ha)
        obtain ⟨h3, hc, hl3, c1, c2⟩ := clear_seg st'
        simp only [headOr_cons] at hc
        have hpne : das.take sas.length ≠ [] := List.ne_nil_of_mem hqm
        refine ⟨h3, ?_, ?_, ?_, c1, ?_, ?_⟩
        · have hroot : headOr das none = headOr (das.take sas.length) none := by
            rw [← hdas, headOr_append_of_ne_nil _ _ hpne, hdas]
          have hp' : h1.read d = some ⟨y, headOr rest none, some q⟩ := by rw [hp, hq]
          rw [← hroot]
          simp [assign, he, hdr, hsdrop, getPrev, hp', setNext, hqn, hc]
        · refine ⟨_, s1'.frame fun a ha => c2 a fun hm => ?_⟩
          rcases List.mem_cons.1 hm with e | hm
          · exact hp1 (e ▸ ha)
          · exact hdj a ha hm
        · rw [hl3]; simp [hlen]
        · intro a ha _
          have hqa : q ≠ a := fun e => ha (e ▸ hpsub q hqm)
          rw [c2 a fun hm => ha (hsub a hm), read_set_ne _ hqa, hfr a ha]
        · intro a h1a h2a
          rw [hl3] at h2a
          simp [hlen] at h2a
          omega
/-! ## Reachability inside a chain -/

theorem Seg.read_mem {h : Heap T} {pv nx : Ptr} {cs : List Nat} {xs : List T}
    (hs : Seg h pv cs xs nx) {a : Nat} (ha : a ∈ cs) :
    ∃ pre post x, cs = pre ++ a :: post ∧
      h.read a = some ⟨x, headOr post nx, lastOr pv pre⟩ := by
  induction cs generalizing pv xs with
  | nil => simp at ha
  | cons c cs ih => cases xs with
    | nil => simp [Seg] at hs
    | cons v vs =>
      simp only [seg_cons] at hs
      by_cases hac : a = c
      · subst hac
        exact ⟨[], cs, v, rfl, hs.1⟩
      · have ha' : a ∈ cs := by
          rcases List.mem_cons.1 ha with e | e
          · exact absurd e hac
          · exact e
        obtain ⟨pre, post, x, e, hr⟩ := ih hs.2 ha'
        exact ⟨c :: pre, post, x, by rw [e]; rfl, hr⟩

/-- A chain closed at both ends contains every node linked to one of its nodes. -/
theorem Seg.linked_mem {h : Heap T} {cs : List Nat} {xs : List T}
    (hs : Seg h none cs xs none) {a b : Nat} (ha : a ∈ cs) (hl : Linked h a b) : b ∈ cs := by
  obtain ⟨pre, post, x, e, hr⟩ := hs.read_mem ha
  obtain ⟨n, hn, hlink⟩ := hl
  rw [hr] at hn
  cases hn
  rw [e]
  rcases hlink with hlink | hlink
  · exact List.mem_append_right _ (List.mem_cons_of_mem _ (headOr_none_mem hlink))
  · exact List.mem_append_left _ (lastOr_none_mem hlink)

/-- A chain closed at both ends contains every node reachable from one of its nodes. -/
theorem Seg.reach_mem {h : Heap T} {cs : List Nat} {xs : List T}
    (hs : Seg h none cs xs none) {a b : Nat} (ha : a ∈ cs) (hr : Reach h a b) : b ∈ cs := by
  induction hr with
  | refl => exact ha
  | tail _ hl ih => exact hs.linked_mem ih hl

theorem lastOr_none_eq_getLast? (as : List Nat) : lastOr none as = as.getLast? := by
  rcases eq_nil_or_snoc as with rfl | ⟨l, a, rfl⟩
  · rfl
  · rw [lastOr_concat]; simp

theorem Seg.last_next {h : Heap T} {pv nx : Ptr} {cs : List Nat} {xs : List T}
    (hs : Seg h pv cs xs nx) {q : Nat} (hq : cs.getLast? = some q) :
    (h.read q).map Node.pNext = some nx := by
  rcases eq_nil_or_snoc cs with rfl | ⟨l, a, rfl⟩
  · simp at hq
  · simp at hq
    subst hq
    have hsuf := @Seg.suffix T h pv nx l [a] xs hs
    rcases hx : xs.drop l.length with _ | ⟨y, ys⟩
    · rw [hx] at hsuf; simp [Seg] at hsuf
    · rw [hx] at hsuf
      cases ys with
      | nil => simp only [seg_cons, headOr_nil] at hsuf; rw [hsuf.1]; rfl
      | cons z zs => simp [Seg] at hsuf
/-! ## `copy` on a chain -/

theorem lastOr_some_ne_none (c : Nat) (l : List Nat) : lastOr (some c) l ≠ none := by
  induction l generalizing c with
  | nil => exact Option.some_ne_none _
  | cons a l ih => exact ih a

theorem lastOr_front (cs : List Nat) (n : Nat) :
    (if lastOr none cs = none then some n else lastOr none cs) = lastOr (some n) cs := by
  cases cs with
  | nil => simp
  | cons c cs => simp [lastOr_some_ne_none]

/-- Inserting before the head of a chain, or at the null position when the chain is
empty, puts the new node in front. -/
theorem insert_front {h : Heap T} {cs : List Nat} {cvs : List T} (v : T)
    (hc : Seg h none cs cvs none) :
    ∃ h1, insert h (headOr cs none) v false = some (h1, some h.length) ∧
      Seg h1 none (h.length :: cs) (v :: cvs) none ∧
      h1.length = h.length + 1 ∧
      (∀ a, a ∉ cs → a ≠ h.length → h1.read a = h.read a) := by
  cases cs with
  | nil =>
    cases cvs with
    | nil =>
      refine ⟨_, insert_null h v false, ?_, by simp, ?_⟩
      · simp [read_append_length]
      · intro a _ ha
        rw [read_snoc, if_neg ha]
    | cons w ws => simp [Seg] at hc
  | cons c cs =>
    cases cvs with
    | nil => simp [Seg] at hc
    | cons w ws =>
      obtain ⟨h1, he, hseg, hfr, -⟩ := @insert_before_seg T h [] cs c [] ws w v hc rfl
      have hp : h.read c = some ⟨w, headOr cs none, none⟩ := by
        simp only [seg_cons] at hc; exact hc.1
      obtain ⟨h2, he2, hlen, -⟩ := insert_before_reads v hp (by intro q hq; cases hq)
      rw [he] at he2
      cases he2
      exact ⟨h1, he, hseg, hlen, fun a ha hne => hfr a ha hne⟩

theorem copyLoop_seg {h : Heap T} {spv : Ptr} {cs sas : List Nat} {cvs svs : List T}
    (hc : Seg h none cs cvs none) (hsrc : Seg h spv sas svs none)
    (hdis : ∀ a ∈ sas, a ∉ cs) (fuel : Nat) (hf : sas.length ≤ fuel) :
    ∃ h' cs', copyLoop fuel h (lastOr none cs) (headOr sas none) (headOr cs none) =
        some (h', lastOr none (cs' ++ cs)) ∧
      Seg h' none (cs' ++ cs) (svs.reverse ++ cvs) none ∧
      h'.length = h.length + sas.length ∧
      (∀ a, a ∉ cs → a < h.length → h'.read a = h.read a) ∧
      (∀ a, h.length ≤ a → a < h'.length → a ∈ cs') ∧
      (∀ a, a ∈ cs' → h.length ≤ a) := by
  induction sas generalizing h spv cs cvs svs fuel with
  | nil =>
    cases svs with
    | nil =>
      refine ⟨h, [], ?_, by simpa using hc, by simp, fun _ _ _ => rfl, ?_, by simp⟩
      · cases fuel <;> simp [copyLoop]
      · intro a h1 h2; omega
    | cons w ws => simp [Seg] at hsrc
  | cons s sas ih =>
    cases svs with
    | nil => simp [Seg] at hsrc
    | cons sv svs =>
      simp only [seg_cons] at hsrc
      cases fuel with
      | zero => simp at hf
      | succ fuel =>
        simp at hf
        obtain ⟨h1, he, hseg, hlen, hfr⟩ := insert_front sv hc
        have hsl := read_lt hsrc.1
        have hs1 : h1.read s = h.read s :=
          hfr s (hdis s (List.mem_cons_self _ _)) (by omega)
        have hsrc1 : Seg h1 (some s) sas svs none :=
          hsrc.2.frame fun a ha =>
            hfr a (hdis a (List.mem_cons_of_mem _ ha)) (by have := hsrc.2.mem_lt ha; omega)
        have hdis1 : ∀ a ∈ sas, a ∉ h.length :: cs := by
          intro a ha hm
          rcases List.mem_cons.1 hm with e | hm
          · have := hsrc.2.mem_lt ha; omega
          · exact hdis a (List.mem_cons_of_mem _ ha) hm
        obtain ⟨h', cs', he', hseg', hlen', hfr', hnew, hge⟩ := ih hseg hsrc1 hdis1 fuel hf
        refine ⟨h', cs' ++ [h.length], ?_, ?_, ?_, ?_, ?_, ?_⟩
        · simp only [headOr_cons] at he'
          simp only [lastOr_cons] at he'
          simp [copyLoop, getData, getNext, hsrc.1, he, hs1, lastOr_front, he']
        · simpa using hseg'
        · rw [hlen', hlen]; simp; omega
        · intro a ha hal
          rw [hfr' a (by simp [ha]; omega) (by omega), hfr a ha (by omega)]
        · intro a h1a h2a
          by_cases e : a = h.length
          · simp [e]
          · exact List.mem_append_left _ (hnew a (by omega) h2a)
        · intro a ha
          rcases List.mem_append.1 ha with ha | ha
          · have := hge a ha; omega
          · simp at ha; omega

theorem copy_seg {h : Heap T} {spv : Ptr} {sas : List Nat} {svs : List T}
    (hsrc : Seg h spv sas svs none) :
    ∃ h' cs, copy h (headOr sas none) = some (h', lastOr none cs) ∧
      Seg h' none cs svs.reverse none ∧
      h'.length = h.length + sas.length ∧
      (∀ a, a < h.length → h'.read a = h.read a) ∧
      (∀ a, h.length ≤ a → a < h'.length → a ∈ cs) ∧
      (∀ a, a ∈ cs → h.length ≤ a) := by
  have hc : Seg h none [] ([] : List T) none := by simp
  obtain ⟨h', cs, he, hseg, hlen, hfr, hnew, hge⟩ :=
    copyLoop_seg hc hsrc (by simp) (h.length + 1) (by have := hsrc.length_le; omega)
  exact ⟨h', cs, by simpa [copy] using he, by simpa using hseg, hlen,
    fun a ha => hfr a (by simp) ha, hnew, hge⟩

theorem traverseBackLoop_seg {h : Heap T} {nx : Ptr} (n : Nat) :
    ∀ {cs : List Nat} {vs : List T}, cs.length = n → Seg h none cs vs nx →
      ∀ fuel, cs.length ≤ fuel → traverseBackLoop h fuel (lastOr none cs) = some vs.reverse := by
  induction n generalizing nx with
  | zero =>
    intro cs vs hn hs fuel _
    have : cs = [] := List.length_eq_zero.1 hn
    subst this
    cases vs with
    | nil => cases fuel <;> simp [traverseBackLoop]
    | cons v vs => simp [Seg] at hs
  | succ n ih =>
    intro cs vs hn hs fuel hf
    rcases eq_nil_or_snoc cs with rfl | ⟨l, a, rfl⟩
    · simp at hn
    · rcases eq_nil_or_snoc vs with rfl | ⟨ws, w, rfl⟩
      · have := hs.length_eq; simp at this
      · have hl : l.length = ws.length := by simpa using hs.length_eq
        rw [seg_append hl] at hs
        obtain ⟨s1, s2⟩ := hs
        simp only [seg_cons, headOr_nil, headOr_cons] at s1 s2
        cases fuel with
        | zero => simp at hf
        | succ fuel =>
          have hln : l.length = n := by simpa using hn
          have := ih hln s1 fuel (by simp at hf; omega)
          simp [lastOr_concat, traverseBackLoop, s2.1, this]

theorem traverseBack_seg {h : Heap T} {nx : Ptr} {cs : List Nat} {vs : List T}
    (hs : Seg h none cs vs nx) (hn : cs.Nodup) :
    traverseBack h (lastOr none cs) = some vs.reverse :=
  traverseBackLoop_seg cs.length rfl hs (h.length + 1)
    (by have := length_le_of_nodup_lt hn fun _ ha => hs.mem_lt ha; omega)
/-! ## The invariant and the decomposition of the heap into chains -/

theorem Seg.initial {h : Heap T} {pv nx : Ptr} {l1 l2 : List Nat} {vs : List T}
    (hs : Seg h pv (l1 ++ l2) vs nx) :
    Seg h pv l1 (vs.take l1.length) (headOr l2 nx) := by
  have hl := hs.length_eq
  have hv : vs = vs.take l1.length ++ vs.drop l1.length := (List.take_append_drop _ _).symm
  rw [hv] at hs
  have hl1 : l1.length = (vs.take l1.length).length := by
    simp at hl ⊢; omega
  exact ((seg_append hl1).1 hs).1

theorem walkNext_seg {h : Heap T} {pv : Ptr} {as : List Nat} {xs : List T}
    (hs : Seg h pv as xs none) : walkNext h as.length (headOr as none) = some none := by
  induction as generalizing pv xs with
  | nil => rfl
  | cons a as ih => cases xs with
    | nil => simp [Seg] at hs
    | cons v vs =>
      simp only [seg_cons] at hs
      simp [walkNext, hs.1, ih hs.2]

theorem walkPrev_seg {h : Heap T} {nx : Ptr} (n : Nat) :
    ∀ {cs : List Nat} {vs : List T}, cs.length = n → Seg h none cs vs nx →
      walkPrev h cs.length (lastOr none cs) = some none := by
  induction n generalizing nx with
  | zero =>
    intro cs vs hn _
    have : cs = [] := List.length_eq_zero.1 hn
    subst this
    rfl
  | succ n ih =>
    intro cs vs hn hs
    rcases eq_nil_or_snoc cs with rfl | ⟨l, a, rfl⟩
    · simp at hn
    · rcases eq_nil_or_snoc vs with rfl | ⟨ws, w, rfl⟩
      · have := hs.length_eq; simp at this
      · have hl : l.length = ws.length := by simpa using hs.length_eq
        rw [seg_append hl] at hs
        obtain ⟨s1, s2⟩ := hs
        simp only [seg_cons, headOr_nil, headOr_cons] at s1 s2
        have hln : l.length = n := by simpa using hn
        have := ih hln s1
        simp [lastOr_concat, walkPrev, s2.1, this]

/-- In a null-terminated segment the `pNext` of a node is a node of the segment
whose `pPrev` is that node. -/
theorem Seg.next_prev {h : Heap T} {pv : Ptr} {cs : List Nat} {xs : List T}
    (hs : Seg h pv cs xs none) {a b : Nat} {na : Node T} (ha : a ∈ cs)
    (hra : h.read a = some na) (hn : na.pNext = some b) :
    ∃ nb, h.read b = some nb ∧ nb.pPrev = some a ∧ b ∈ cs := by
  induction cs generalizing pv xs with
  | nil => simp at ha
  | cons d cs ih => cases xs with
    | nil => simp [Seg] at hs
    | cons v vs =>
      simp only [seg_cons] at hs
      by_cases had : a = d
      · subst had
        rw [hs.1] at hra
        cases hra
        simp only at hn
        cases cs with
        | nil => simp at hn
        | cons e cs =>
          simp only [headOr_cons] at hn
          cases hn
          cases vs with
          | nil => simp [Seg] at hs
          | cons w ws =>
            have h2 := hs.2
            simp only [seg_cons] at h2
            exact ⟨_, h2.1, rfl, by simp⟩
      · have ha' : a ∈ cs := by
          rcases List.mem_cons.1 ha with e | e
          · exact absurd e had
          · exact e
        obtain ⟨nb, h1, h2, h3⟩ := ih hs.2 ha'
        exact ⟨nb, h1, h2, List.mem_cons_of_mem _ h3⟩

/-- In a segment the `pPrev` of a node is either the `pPrev` of the whole segment,
when the node is its head, or a node of the segment whose `pNext` is that node. -/
theorem Seg.prev_next {h : Heap T} {pv nx : Ptr} {cs : List Nat} {xs : List T}
    (hs : Seg h pv cs xs nx) {a b : Nat} {nb : Node T} (hb : b ∈ cs)
    (hrb : h.read b = some nb) (hp : nb.pPrev = some a) :
    (pv = some a ∧ headOr cs nx = some b) ∨
      ∃ na, h.read a = some na ∧ na.pNext = some b ∧ a ∈ cs := by
  induction cs generalizing pv xs with
  | nil => simp at hb
  | cons d cs ih => cases xs with
    | nil => simp [Seg] at hs
    | cons v vs =>
      simp only [seg_cons] at hs
      by_cases hbd : b = d
      · subst hbd
        rw [hs.1] at hrb
        cases hrb
        exact Or.inl ⟨hp, rfl⟩
      · have hb' : b ∈ cs := by
          rcases List.mem_cons.1 hb with e | e
          · exact absurd e hbd
          · exact e
        rcases ih hs.2 hb' with ⟨e1, e2⟩ | ⟨na, h1, h2, h3⟩
        · cases e1
          exact Or.inr ⟨_, hs.1, e2, by simp⟩
        · exact Or.inr ⟨na, h1, h2, List.mem_cons_of_mem _ h3⟩

/-- A heap that is a union of closed chains satisfies the invariant. -/
theorem Chains.inv {h : Heap T} (hc : Chains h) : Inv h := by
  refine ⟨?_, ?_, ?_, ?_, ?_⟩
  · intro a na b hra hn
    obtain ⟨cs, xs, hs, ha⟩ := hc a na hra
    obtain ⟨nb, h1, -, -⟩ := hs.next_prev ha hra hn
    exact ⟨nb, h1⟩
  · intro a na b hra hp
    obtain ⟨cs, xs, hs, ha⟩ := hc a na hra
    rcases hs.prev_next ha hra hp with ⟨e, -⟩ | ⟨nb, h1, -, -⟩
    · cases e
    · exact ⟨nb, h1⟩
  · intro a na b nb hra hrb
    constructor
    · intro hn
      obtain ⟨cs, xs, hs, ha⟩ := hc a na hra
      obtain ⟨nb', h1, h2, -⟩ := hs.next_prev ha hra hn
      rw [hrb] at h1
      cases h1
      exact h2
    · intro hp
      obtain ⟨cs, xs, hs, hb⟩ := hc b nb hrb
      rcases hs.prev_next hb hrb hp with ⟨e, -⟩ | ⟨na', h1, h2, -⟩
      · cases e
      · rw [hra] at h1
        cases h1
        exact h2
  · intro a na hra
    obtain ⟨cs, xs, hs, ha⟩ := hc a na hra
    obtain ⟨pre, post, rfl⟩ := List.append_of_mem ha
    have := walkNext_seg (@Seg.suffix T h none none pre (a :: post) xs hs)
    exact ⟨_, this⟩
  · intro a na hra
    obtain ⟨cs, xs, hs, ha⟩ := hc a na hra
    obtain ⟨pre, post, rfl⟩ := List.append_of_mem ha
    have hs' : Seg h none ((pre ++ [a]) ++ post) xs none := by simpa using hs
    have := walkPrev_seg (pre ++ [a]).length rfl hs'.initial
    rw [lastOr_concat] at this
    exact ⟨_, this⟩
theorem Inv.forward {h : Heap T} (hi : Inv h) (k : Nat) :
    ∀ (a : Nat) (na : Node T), h.read a = some na → walkNext h k (some a) = some none →
      ∃ as xs, Seg h na.pPrev (a :: as) xs none := by
  induction k with
  | zero => intro a na _ hw; simp [walkNext] at hw
  | succ k ih =>
    intro a na hra hw
    simp only [walkNext, hra, Option.some_bind] at hw
    cases hnx : na.pNext with
    | none =>
      refine ⟨[], [na.data], ?_⟩
      simp only [seg_cons, headOr_nil, seg_nil, and_true]
      rw [hra]
      cases na
      simp only at hnx
      rw [hnx]
    | some b =>
      rw [hnx] at hw
      obtain ⟨nb, hrb⟩ := hi.next_alloc a na b hra hnx
      have hpb : nb.pPrev = some a := (hi.link a na b nb hra hrb).1 hnx
      obtain ⟨as, xs, hs⟩ := ih b nb hrb hw
      rw [hpb] at hs
      refine ⟨b :: as, na.data :: xs, ?_⟩
      simp only [seg_cons, headOr_cons]
      refine ⟨?_, by simpa using hs⟩
      rw [hra]
      cases na
      simp only at hnx
      rw [hnx]

/-- A heap that satisfies the invariant is a union of closed chains. -/
theorem Inv.chains {h : Heap T} (hi : Inv h) : Chains h := by
  have key : ∀ (j : Nat) (a : Nat) (na : Node T), h.read a = some na →
      walkPrev h j (some a) = some none → ∃ cs xs, Seg h none cs xs none ∧ a ∈ cs := by
    intro j
    induction j with
    | zero => intro a na _ hw; simp [walkPrev] at hw
    | succ j ih =>
      intro a na hra hw
      simp only [walkPrev, hra, Option.some_bind] at hw
      cases hpv : na.pPrev with
      | none =>
        obtain ⟨k, hk⟩ := hi.to_tail a na hra
        obtain ⟨as, xs, hs⟩ := hi.forward k a na hra hk
        rw [hpv] at hs
        exact ⟨a :: as, xs, hs, by simp⟩
      | some q =>
        rw [hpv] at hw
        obtain ⟨nq, hrq⟩ := hi.prev_alloc a na q hra hpv
        obtain ⟨cs, xs, hs, hq⟩ := ih q nq hrq hw
        have hnq : nq.pNext = some a := (hi.link q nq a na hrq hra).2 hpv
        exact ⟨cs, xs, hs, hs.linked_mem hq ⟨nq, hrq, Or.inl hnq⟩⟩
  intro a na hra
  obtain ⟨j, hj⟩ := hi.to_head a na hra
  exact key j a na hra hj

theorem inv_iff_chains (h : Heap T) : Inv h ↔ Chains h :=
  ⟨Inv.chains, Chains.inv⟩

/-- Any two nodes of a segment are reachable from each other. -/
theorem Seg.reach {h : Heap T} {pv nx : Ptr} {cs : List Nat} {xs : List T}
    (hs : Seg h pv cs xs nx) {a b : Nat} (ha : a ∈ cs) (hb : b ∈ cs) : Reach h a b := by
  induction cs generalizing pv xs a b with
  | nil => simp at ha
  | cons d cs ih => cases xs with
    | nil => simp [Seg] at hs
    | cons v vs =>
      simp only [seg_cons] at hs
      cases cs with
      | nil =>
        simp at ha hb
        subst ha hb
        exact Relation.ReflTransGen.refl
      | cons e cs =>
        cases vs with
        | nil => have := hs.2; simp [Seg] at this
        | cons w ws =>
          have h2 := hs.2
          simp only [seg_cons] at h2
          have hde : Linked h d e := ⟨_, hs.1, Or.inl rfl⟩
          have hed : Linked h e d := ⟨_, h2.1, Or.inr rfl⟩
          have he : e ∈ e :: cs := List.mem_cons_self _ _
          rcases List.mem_cons.1 ha with rfl | ha' <;> rcases List.mem_cons.1 hb with rfl | hb'
          · exact Relation.ReflTransGen.refl
          · exact Relation.ReflTransGen.head hde (ih hs.2 he hb')
          · exact Relation.ReflTransGen.tail (ih hs.2 ha' he) hed
          · exact ih hs.2 ha' hb'

/-- Two closed chains that share a node have the same nodes. -/
theorem Seg.mem_of_shared {h : Heap T} {cs cs2 : List Nat} {xs xs2 : List T}
    (hs : Seg h none cs xs none) (hs2 : Seg h none cs2 xs2 none) {a : Nat}
    (ha : a ∈ cs) (ha2 : a ∈ cs2) {b : Nat} (hb : b ∈ cs) : b ∈ cs2 :=
  hs2.reach_mem ha2 (hs.reach ha hb)

/-- The frame rule for the decomposition into chains: when an operation touches
only the nodes of one chain `cs0` and the cells beyond the old end of the heap,
and every node it leaves there lies on a closed chain, the new heap is a union of
closed chains. -/
theorem chains_frame {h h' : Heap T} (hc : Chains h) {cs0 : List Nat} {xs0 : List T}
    (hs0 : Seg h none cs0 xs0 none)
    (hfr : ∀ a, a ∉ cs0 → a < h.length → h'.read a = h.read a)
    (hnew : ∀ a na, (a ∈ cs0 ∨ h.length ≤ a) → h'.read a = some na →
      ∃ cs xs, Seg h' none cs xs none ∧ a ∈ cs) : Chains h' := by
  intro a na hra
  by_cases ht : a ∈ cs0 ∨ h.length ≤ a
  · exact hnew a na ht hra
  · have h1 : a ∉ cs0 := fun hm => ht (Or.inl hm)
    have h2 : a < h.length := by
      by_contra hge; exact ht (Or.inr (by omega))
    have hra' : h.read a = some na := by rw [← hfr a h1 h2]; exact hra
    obtain ⟨cs, xs, hs, ha⟩ := hc a na hra'
    refine ⟨cs, xs, hs.frame fun b hb => hfr b ?_ (hs.mem_lt hb), ha⟩
    intro hb0
    exact h1 (hs.mem_of_shared hs0 hb hb0 ha)
/-! ## Every operation preserves the decomposition into chains -/

theorem lastOr_none_eq_none {l : List Nat} (hl : lastOr none l = none) : l = [] := by
  rcases eq_nil_or_snoc l with e | ⟨l', a, e⟩
  · exact e
  · rw [e, lastOr_concat] at hl; cases hl

theorem Seg.split_mem {h : Heap T} {pv nx : Ptr} {cs : List Nat} {xs : List T}
    (hs : Seg h pv cs xs nx) {a : Nat} (ha : a ∈ cs) :
    ∃ pre post xs1 x xs2, pre.length = xs1.length ∧
      Seg h pv (pre ++ a :: post) (xs1 ++ x :: xs2) nx ∧ cs = pre ++ a :: post := by
  obtain ⟨pre, post, rfl⟩ := List.append_of_mem ha
  have hl := hs.length_eq
  have hlt : pre.length < xs.length := by simp at hl; omega
  refine ⟨pre, post, xs.take pre.length, xs[pre.length], xs.drop (pre.length + 1), ?_, ?_, rfl⟩
  · rw [List.length_take]; omega
  · rw [← List.drop_eq_getElem_cons hlt, List.take_append_drop]
    exact hs

/-- A valid pointer is the start of a null-terminated segment. -/
theorem Valid.to_segment {h : Heap T} (hc : Chains h) {p : Ptr} (hp : Valid h p) :
    ∃ spv sas svs, Seg h spv sas svs none ∧ p = headOr sas none := by
  rcases hp with rfl | ⟨a, n, rfl, hr⟩
  · exact ⟨none, [], [], by simp, rfl⟩
  · obtain ⟨cs, xs, hs, ha⟩ := hc a n hr
    obtain ⟨pre, post, rfl⟩ := List.append_of_mem ha
    exact ⟨_, a :: post, _, @Seg.suffix T h none none pre (a :: post) xs hs, rfl⟩

/-- A head pointer is the start of a closed chain. -/
theorem IsHead.to_chain {h : Heap T} (hc : Chains h) {p : Ptr} (hp : IsHead h p) :
    ∃ das dvs, Seg h none das dvs none ∧ p = headOr das none := by
  rcases hp with rfl | ⟨a, n, rfl, hr, hpv⟩
  · exact ⟨[], [], by simp, rfl⟩
  · obtain ⟨cs, xs, hs, ha⟩ := hc a n hr
    obtain ⟨pre, post, x, e, hra⟩ := hs.read_mem ha
    rw [hr] at hra
    cases hra
    have hpre : pre = [] := lastOr_none_eq_none hpv
    subst hpre
    subst e
    exact ⟨a :: post, xs, hs, rfl⟩

theorem insert_chains {h : Heap T} (hc : Chains h) {p : Ptr} (hp : Valid h p) (v : T)
    (after : Bool) : ∃ h' r, insert h p v after = some (h', r) ∧ Chains h' := by
  rcases hp with rfl | ⟨a0, n0, rfl, hr0⟩
  · refine ⟨_, _, insert_null h v after, ?_⟩
    have hs0 : Seg h none [] ([] : List T) none := by simp
    refine chains_frame hc hs0 (fun a _ hal => read_append_of_lt _ hal) ?_
    intro a na ht hra
    rcases ht with ht | ht
    · simp at ht
    · have hal : a = h.length := by
        by_contra hne
        rw [read_snoc, if_neg hne, read_ge ht] at hra
        cases hra
      subst hal
      exact ⟨[h.length], [v], by simp [read_append_length], by simp⟩
  · obtain ⟨cs0, xs0, hs0, ha0⟩ := hc a0 n0 hr0
    obtain ⟨pre, post, xs1, x, xs2, hl, hs, rfl⟩ := hs0.split_mem ha0
    have hkey : ∀ (h' : Heap T) (cs' : List Nat) (xs' : List T),
        Seg h' none cs' xs' none → (∀ a, a ∈ pre ++ a0 :: post → a ∈ cs') → h.length ∈ cs' →
        (∀ a, a ∉ pre ++ a0 :: post → a ≠ h.length → h'.read a = h.read a) → Chains h' := by
      intro h' cs' xs' hseg hsub hn hfr
      refine chains_frame hc hs0 (fun a ha hal => hfr a ha (by omega)) ?_
      intro a na ht hra
      rcases ht with ht | ht
      · exact ⟨cs', xs', hseg, hsub a ht⟩
      · by_cases hal : a = h.length
        · subst hal; exact ⟨cs', xs', hseg, hn⟩
        · have hnot : a ∉ pre ++ a0 :: post := fun hm => by
            have := hs0.mem_lt hm; omega
          rw [hfr a hnot hal, read_ge ht] at hra
          cases hra
    cases after with
    | false =>
      obtain ⟨h', he, hseg, hfr, -⟩ := insert_before_seg v hs hl
      refine ⟨h', _, he, hkey h' _ _ hseg ?_ (by simp) hfr⟩
      intro a ha
      simp at ha ⊢
      tauto
    | true =>
      obtain ⟨h', he, hseg, hfr, -⟩ := insert_after_seg v hs hl
      refine ⟨h', _, he, hkey h' _ _ hseg ?_ (by simp) hfr⟩
      intro a ha
      simp at ha ⊢
      tauto

theorem remove_chains {h : Heap T} (hc : Chains h) {p : Ptr} (hp : Valid h p) :
    ∃ h' r, remove h p = some (h', r) ∧ Chains h' := by
  rcases hp with rfl | ⟨a0, n0, rfl, hr0⟩
  · exact ⟨h, none, rfl, hc⟩
  · obtain ⟨cs0, xs0, hs0, ha0⟩ := hc a0 n0 hr0
    obtain ⟨pre, post, xs1, x, xs2, hl, hs, rfl⟩ := hs0.split_mem ha0
    obtain ⟨h', he, -, hfree, hseg, hfr, -⟩ := remove_seg hs hl
    refine ⟨h', _, he, chains_frame hc hs0 (fun a ha _ => hfr a ha) ?_⟩
    intro a na ht hra
    rcases ht with ht | ht
    · refine ⟨_, _, hseg, ?_⟩
      have hne : a ≠ a0 := by
        intro e; rw [e, hfree] at hra; cases hra
      simp at ht ⊢
      tauto
    · have hnot : a ∉ pre ++ a0 :: post := fun hm => by
        have := hs0.mem_lt hm; omega
      rw [hfr a hnot, read_ge ht] at hra
      cases hra

theorem clear_chains {h : Heap T} (hc : Chains h) {p : Ptr} (hp : IsHead h p) :
    ∃ h' r, clear h p = some (h', r) ∧ Chains h' := by
  obtain ⟨das, dvs, hs0, rfl⟩ := hp.to_chain hc
  obtain ⟨h', he, -, hfree, hfr⟩ := clear_seg hs0
  refine ⟨h', _, he, chains_frame hc hs0 (fun a ha _ => hfr a ha) ?_⟩
  intro a na ht hra
  rcases ht with ht | ht
  · rw [hfree a ht] at hra; cases hra
  · have hnot : a ∉ das := fun hm => by
      have := hs0.mem_lt hm; omega
    rw [hfr a hnot, read_ge ht] at hra
    cases hra

theorem copy_chains {h : Heap T} (hc : Chains h) {p : Ptr} (hp : Valid h p) :
    ∃ h' r, copy h p = some (h', r) ∧ Chains h' := by
  obtain ⟨spv, sas, svs, hsrc, rfl⟩ := hp.to_segment hc
  obtain ⟨h', cs, he, hseg, -, hfr, hnew, -⟩ := copy_seg hsrc
  have hs0 : Seg h none [] ([] : List T) none := by simp
  refine ⟨h', _, he, chains_frame hc hs0 (fun a _ hal => hfr a hal) ?_⟩
  intro a na ht hra
  rcases ht with ht | ht
  · simp at ht
  · exact ⟨cs, _, hseg, hnew a ht (read_lt hra)⟩

theorem assign_chains {h : Heap T} (hc : Chains h) {d s : Ptr} (hd : IsHead h d)
    (hs : Valid h s) : ∃ h' r, assign h d s = some (h', r) ∧ Chains h' := by
  obtain ⟨das, dvs, hs0, rfl⟩ := hd.to_chain hc
  obtain ⟨spv, sas, svs, hsrc, rfl⟩ := hs.to_segment hc
  obtain ⟨h', he, ⟨vs', hseg⟩, -, hfree, hfr, hnew⟩ := assign_shape hs0 hsrc
  refine ⟨h', _, he, chains_frame hc hs0 hfr ?_⟩
  intro a na ht hra
  rcases ht with ht | ht
  · rw [← List.take_append_drop sas.length das] at ht
    rcases List.mem_append.1 ht with ht | ht
    · exact ⟨_, _, hseg, ht⟩
    · rw [hfree a ht] at hra; cases hra
  · obtain ⟨v, hv⟩ := hnew a ht (read_lt hra)
    exact ⟨[a], [v], by simp [hv], by simp⟩

theorem chain123_inv : Inv chain123 := by
  apply Chains.inv
  intro a na hra
  have hs : Seg chain123 none [0, 1, 2] [1, 2, 3] none := ⟨rfl, rfl, rfl, trivial⟩
  refine ⟨[0, 1, 2], [1, 2, 3], hs, ?_⟩
  have hl : a < 3 := read_lt hra
  interval_cases a <;> simp

/-! ## The claims, continued -/

/-- C14: `insert` before the head `a` of a non-empty well-formed chain returns a
node `n` that was not allocated before, with `n.pPrev` null, `n.pNext` the old
head and the old head's `pPrev` now `n`; forward traversal from `n` yields `v`
followed by the old values, while forward traversal and `size` from the old head
reference still yield exactly the old values. -/
theorem insert_before_head (h : Heap T) (a : Nat) (as : List Nat) (x : T) (xs : List T) (v : T)
    (hs : Seg h none (a :: as) (x :: xs) none) :
    ∃ h' n, insert h (some a) v false = some (h', some n) ∧
      h.read n = none ∧
      (h'.read n).map Node.pPrev = some none ∧
      (h'.read n).map Node.pNext = some (some a) ∧
      (h'.read a).map Node.pPrev = some (some n) ∧
      traverse h' (some n) = some (v :: x :: xs) ∧
      traverse h' (some a) = some (x :: xs) ∧
      size h' (some a) = some (xs.length + 1) := by
  obtain ⟨h', he, hseg, -, -⟩ := @insert_before_seg T h [] as a [] xs x v hs rfl
  have hseg' : Seg h' none (h.length :: a :: as) (v :: x :: xs) none := hseg
  have ht := traverse_seg hseg'
  simp only [seg_cons, headOr_cons] at hseg'
  obtain ⟨hn, ha, hrest⟩ := hseg'
  have htail : Seg h' (some h.length) (a :: as) (x :: xs) none :=
    (seg_cons _ _ _ _ _ _ _).2 ⟨ha, hrest⟩
  have hlen : as.length = xs.length := by simpa using hs.length_eq
  refine ⟨h', h.length, he, read_ge (Nat.le_refl _), ?_, ?_, ?_, ht, traverse_seg htail, ?_⟩
  · rw [hn]; rfl
  · rw [hn]; rfl
  · rw [ha]; rfl
  · have hz := size_seg htail
    simp only [headOr_cons, List.length_cons, hlen] at hz
    exact hz

theorem insert_before_head_witness :
    Seg chain123 none [0, 1, 2] [1, 2, 3] none ∧
      ∃ h' n, insert chain123 (some 0) 9 false = some (h', some n) ∧
        traverse h' (some n) = some [9, 1, 2, 3] ∧ traverse h' (some 0) = some [1, 2, 3] := by
  refine ⟨⟨rfl, rfl, rfl, trivial⟩, ?_⟩
  obtain ⟨h', n, he, -, -, -, -, ht, ht0, -⟩ :=
    insert_before_head chain123 0 [1, 2] 1 [2, 3] 9 ⟨rfl, rfl, rfl, trivial⟩
  exact ⟨h', n, he, ht, ht0⟩

/-- C16 (as the code behaves): in before mode `insert` retargets the predecessor:
when the position is the node of index `i + 1` of a well-formed chain, whose
predecessor is the node of index `i`, the predecessor's `pNext` refers to the
position before the call and to the new node after it. -/
theorem insert_before_retargets_predecessor (h : Heap T) (as : List Nat) (xs : List T)
    (i : Nat) (v : T) (hs : Seg h none as xs none) (hi : i + 1 < as.length) :
    ∃ h' n, insert h (some as[i + 1]) v false = some (h', some n) ∧
      h.read n = none ∧
      (h.read as[i]).map Node.pNext = some (some as[i + 1]) ∧
      (h.read as[i + 1]).map Node.pPrev = some (some as[i]) ∧
      (h'.read as[i]).map Node.pNext = some (some n) ∧
      n ≠ as[i + 1] := by
  obtain ⟨hx, hs', hl⟩ := hs.at_index hi
  have hi' : i < as.length := by omega
  have htk : as.take (i + 1) = as.take i ++ [as[i]] := (List.take_concat_get' as i hi').symm
  have hlast : lastOr none (as.take (i + 1)) = some as[i] := by rw [htk, lastOr_concat]
  obtain ⟨h', he, hseg, -, -⟩ := insert_before_seg v hs' hl
  obtain ⟨s1, hp, -⟩ := hs'.split hl
  obtain ⟨s1', -, -⟩ := hseg.split hl
  have hq : ∀ {g : Heap T} {nx : Ptr}, Seg g none (as.take (i + 1)) (xs.take (i + 1)) nx →
      (g.read as[i]).map Node.pNext = some nx := by
    intro g nx hg
    have hx' : i < xs.length := by omega
    rw [htk, ← List.take_concat_get' xs i hx'] at hg
    have hl2 : (as.take i).length = (xs.take i).length := by
      simp [List.length_take]; omega
    obtain ⟨-, hr, -⟩ := hg.split hl2
    rw [hr]; rfl
  refine ⟨h', h.length, he, read_ge (Nat.le_refl _), hq s1, ?_, hq s1', ?_⟩
  · rw [hp, hlast]; rfl
  · have := hs.mem_lt (List.getElem_mem hi)
    omega

theorem insert_before_retargets_predecessor_witness :
    Seg chain123 none [0, 1, 2] [1, 2, 3] none ∧
      ∃ h' n, insert chain123 (some 1) 9 false = some (h', some n) ∧
        (h'.read 0).map Node.pNext = some (some n) ∧ n ≠ 1 := by
  refine ⟨⟨rfl, rfl, rfl, trivial⟩, ?_⟩
  obtain ⟨h', n, he, -, -, -, hq, hne⟩ :=
    insert_before_retargets_predecessor chain123 [0, 1, 2] [1, 2, 3] 0 9
      ⟨rfl, rfl, rfl, trivial⟩ (by decide)
  exact ⟨h', n, he, hq, hne⟩

/-- C16 (counterexample): in the chain `[1, 2, 3]` the node at address 0 is the
predecessor of the node at address 1; after `insert` before address 1 the
predecessor's `pNext` is the new node at address 3, not the position. -/
theorem insert_before_predecessor_next_changes :
    Seg chain123 none [0, 1, 2] [1, 2, 3] none ∧
      (chain123.read 0).map Node.pNext = some (some 1) ∧
      (insert chain123 (some 1) 9 false).bind (fun r => (r.1.read 0).map Node.pNext)
        = some (some 3) ∧
      ¬ ((insert chain123 (some 1) 9 false).bind (fun r => (r.1.read 0).map Node.pNext)
        = some (some 1)) := by
  refine ⟨⟨rfl, rfl, rfl, trivial⟩, ?_, ?_, ?_⟩ <;> decide
/-- C19: `remove` applied to the node `insert` has just returned restores the heap:
both calls succeed and every address reads as before the insert (same allocated
nodes, same data, `pPrev` and `pNext`). At the null position it returns null; at
the node of index `i` of a well-formed chain it returns that node in after mode,
and in before mode the node's predecessor when there is one, else the node. -/
theorem remove_undoes_insert (h : Heap T) (as : List Nat) (xs : List T) (v : T)
    (hs : Seg h none as xs none) :
    (∀ after : Bool, ∃ h1 n h2, insert h none v after = some (h1, some n) ∧
      remove h1 (some n) = some (h2, none) ∧ ∀ a, h2.read a = h.read a) ∧
    (∀ (i : Nat) (hi : i < as.length),
      (∃ h1 n h2, insert h (some as[i]) v true = some (h1, some n) ∧
        remove h1 (some n) = some (h2, some as[i]) ∧ ∀ a, h2.read a = h.read a) ∧
      (∃ h1 n h2 pn, insert h (some as[i]) v false = some (h1, some n) ∧
        h.read as[i] = some pn ∧
        remove h1 (some n) = some (h2, if pn.pPrev = none then some as[i] else pn.pPrev) ∧
        ∀ a, h2.read a = h.read a)) := by
  have hnone : h.read h.length = none := read_ge (Nat.le_refl _)
  refine ⟨fun after => ?_, fun i hi => ?_⟩
  · have hs1 : Seg (h ++ [some ⟨v, none, none⟩]) none ([] ++ h.length :: []) ([] ++ v :: [])
        none := by
      simp [read_append_length]
    obtain ⟨h2, he, -, hfree, -, hfr, -⟩ := remove_seg hs1 rfl
    refine ⟨_, h.length, h2, insert_null h v after, by simpa using he, fun a => ?_⟩
    by_cases ha : a = h.length
    · rw [ha, hfree, hnone]
    · rw [hfr a (by simpa using ha), read_snoc, if_neg ha]
  · obtain ⟨hx, hs', hl⟩ := hs.at_index hi
    obtain ⟨-, hp, -⟩ := hs'.split hl
    obtain ⟨⟨h1, h2, e1, e2, e3⟩, ⟨g1, g2, f1, f2, f3⟩⟩ := remove_insert_seg v hs' hl
    exact ⟨⟨h1, h.length, h2, e1, e2, e3⟩, ⟨g1, h.length, g2, _, f1, hp, f2, f3⟩⟩

theorem remove_undoes_insert_witness :
    Seg chain123 none [0, 1, 2] [1, 2, 3] none ∧
      ∃ h1 n h2, insert chain123 (some 1) 9 true = some (h1, some n) ∧
        remove h1 (some n) = some (h2, some 1) ∧ ∀ a, h2.read a = chain123.read a :=
  ⟨⟨rfl, rfl, rfl, trivial⟩,
    ((remove_undoes_insert chain123 [0, 1, 2] [1, 2, 3] 9 ⟨rfl, rfl, rfl, trivial⟩).2 1
      (by decide)).1⟩

/-- C20: `assign` of a well-formed chain with head root `r` to itself returns the
heap it was given, cell for cell, so no node is allocated or destroyed and every
node keeps its data, `pPrev` and `pNext`; the root reference it returns is `r`. -/
theorem assign_self_identity (h : Heap T) (as : List Nat) (xs : List T)
    (hs : Seg h none as xs none) :
    assign h as.head? as.head? = some (h, as.head?) := by
  have ho := assignOverlap_self hs (h.length + 1) (by have := hs.length_le; omega)
  rw [headOr_none_eq_head?] at ho
  simp [assign, ho]

theorem assign_self_identity_witness :
    Seg chain123 none [0, 1, 2] [1, 2, 3] none ∧
      assign chain123 (some 0) (some 0) = some (chain123, some 0) :=
  ⟨⟨rfl, rfl, rfl, trivial⟩,
    assign_self_identity chain123 [0, 1, 2] [1, 2, 3] ⟨rfl, rfl, rfl, trivial⟩⟩
/-- C11: when the source is not longer than the destination (`n ≤ m`), `assign`
leaves a destination whose forward value sequence is the source's; its chain is
made of the first `n` original destination nodes and no cell is allocated; the
last retained node's `pNext` is null; the other `m - n` original nodes are
destroyed; the root reference becomes null when `n = 0` and is unchanged otherwise. -/
theorem assign_shorter_source (h : Heap T) (spv : Ptr) (das sas : List Nat)
    (dvs svs : List T) (hd : Seg h none das dvs none) (hsrc : Seg h spv sas svs none)
    (hdis : ∀ a ∈ das, a ∉ sas) (hle : sas.length ≤ das.length) :
    ∃ h' r, assign h das.head? sas.head? = some (h', r) ∧
      r = (if sas.length = 0 then none else das.head?) ∧
      traverse h' r = some svs ∧
      Seg h' none (das.take sas.length) svs none ∧
      r = (das.take sas.length).head? ∧
      h'.length = h.length ∧
      (∀ q, (das.take sas.length).getLast? = some q →
        (h'.read q).map Node.pNext = some none) ∧
      (∀ a, a ∈ das.drop sas.length → h.read a ≠ none ∧ h'.read a = none) := by
  obtain ⟨h', he, hseg, -, -⟩ := assign_seg hd hsrc hdis
  obtain ⟨h'', he', -, hlen, hfree, -, -⟩ := assign_shape hd hsrc
  rw [he] at he'
  cases he'
  have hsv : svs.take das.length = svs :=
    List.take_of_length_le (by have := hsrc.length_eq; omega)
  rw [hsv] at hseg
  have ht := traverse_seg hseg
  rw [headOr_none_eq_head? das, headOr_none_eq_head? sas, headOr_none_eq_head?] at he
  rw [headOr_none_eq_head?] at ht
  refine ⟨h', _, he, ?_, ht, hseg, rfl, by rw [hlen]; omega, fun q hq => hseg.last_next hq,
    fun a ha => ⟨?_, hfree a ha⟩⟩
  · cases sas with
    | nil => simp
    | cons s sas =>
      cases das with
      | nil => simp at hle
      | cons d das => simp
  · obtain ⟨n, hn⟩ := hd.mem_read (List.mem_of_mem_drop ha)
    rw [hn]
    exact Option.some_ne_none _

theorem assign_shorter_source_witness :
    (Seg chain1234and98 none [0, 1, 2, 3] [1, 2, 3, 4] none ∧
      Seg chain1234and98 none [4, 5] [9, 8] none) ∧
      ∃ h', assign chain1234and98 (some 0) (some 4) = some (h', some 0) ∧
        traverse h' (some 0) = some [9, 8] ∧ size h' (some 0) = some 2 ∧
        h'.read 2 = none ∧ h'.read 3 = none ∧ h'.length = 6 := by
  refine ⟨⟨⟨rfl, rfl, rfl, rfl, trivial⟩, ⟨rfl, rfl, trivial⟩⟩, ?_⟩
  obtain ⟨h', r, he, hr, ht, hseg, -, hlen, -, hfree⟩ :=
    assign_shorter_source chain1234and98 none [0, 1, 2, 3] [4, 5] [1, 2, 3, 4] [9, 8]
      ⟨rfl, rfl, rfl, rfl, trivial⟩ ⟨rfl, rfl, trivial⟩ (by decide) (by decide)
  have hr' : r = some 0 := hr
  subst hr'
  exact ⟨h', he, ht, size_seg hseg, (hfree 2 (by decide)).2, (hfree 3 (by decide)).2, hlen⟩

/-- C12, at the empty destination and the source `[5, 6, 7]`: `assign` returns a
null root, not the first appended node: the three nodes it creates, at the
addresses 3, 4 and 5, hold 5, 6 and 7 with both links null, and forward traversal
from the returned root yields no value. -/
theorem assign_empty_destination_root_stays_null :
    Seg chain567 none [0, 1, 2] [5, 6, 7] none ∧
    (assign chain567 none (some 0)).map Prod.snd = some none ∧
    (assign chain567 none (some 0)).bind (fun r => r.1.read 3) = some ⟨5, none, none⟩ ∧
    (assign chain567 none (some 0)).bind (fun r => r.1.read 4) = some ⟨6, none, none⟩ ∧
    (assign chain567 none (some 0)).bind (fun r => r.1.read 5) = some ⟨7, none, none⟩ ∧
    ¬ ((assign chain567 none (some 0)).bind (fun r => traverse r.1 r.2) = some [5, 6, 7]) := by
  refine ⟨⟨rfl, rfl, rfl, trivial⟩, ?_, ?_, ?_, ?_, ?_⟩ <;> decide

/-- C17: after `assign` on a well-formed destination of length `m` with head root
and a disjoint well-formed source of length `n`, the destination's forward value
sequence is the first `min m n` source values and its size is `min m n`, never
more than before; when `m < n` the call allocates `n - m` cells, each a node with
both links null that is not reachable from the destination root. -/
theorem assign_keeps_min (h : Heap T) (spv : Ptr) (das sas : List Nat) (dvs svs : List T)
    (hd : Seg h none das dvs none) (hsrc : Seg h spv sas svs none)
    (hdis : ∀ a ∈ das, a ∉ sas) :
    ∃ h' r, assign h das.head? sas.head? = some (h', r) ∧
      traverse h' r = some (svs.take (min das.length sas.length)) ∧
      size h das.head? = some das.length ∧
      size h' r = some (min das.length sas.length) ∧
      h'.length = h.length + (sas.length - das.length) ∧
      (∀ a, h.length ≤ a → a < h'.length →
        (∃ v, h'.read a = some ⟨v, none, none⟩) ∧ ∀ c, r = some c → ¬ Reach h' c a) := by
  obtain ⟨h', he, hseg, -, -⟩ := assign_seg hd hsrc hdis
  obtain ⟨h'', he', -, hlen, -, -, hnew⟩ := assign_shape hd hsrc
  rw [he] at he'
  cases he'
  have hsl := hsrc.length_eq
  have hv : svs.take das.length = svs.take (min das.length sas.length) := by
    rcases Nat.le_total das.length sas.length with hle | hle
    · rw [Nat.min_eq_left hle]
    · rw [Nat.min_eq_right hle, List.take_of_length_le (by omega),
        List.take_of_length_le (by omega)]
  have ht := traverse_seg hseg
  have hz := size_seg hseg
  rw [hv] at ht
  rw [List.length_take, Nat.min_comm] at hz
  have hz0 := size_seg hd
  rw [headOr_none_eq_head?] at hz0
  rw [headOr_none_eq_head? das, headOr_none_eq_head? sas] at he
  refine ⟨h', _, he, ht, hz0, hz, hlen, fun a h1 h2 => ⟨hnew a h1 h2, fun c hc hreach => ?_⟩⟩
  have hc' : c ∈ das.take sas.length := headOr_none_mem hc
  have hmem := hseg.reach_mem hc' hreach
  have := hd.mem_lt (List.mem_of_mem_take hmem)
  omega

theorem assign_keeps_min_witness :
    (Seg chain123and7 none [3] [7] none ∧ Seg chain123and7 none [0, 1, 2] [1, 2, 3] none) ∧
      ∃ h' r, assign chain123and7 (some 3) (some 0) = some (h', r) ∧
        traverse h' r = some [1] ∧ size h' r = some 1 ∧ h'.length = 6 := by
  refine ⟨⟨⟨rfl, trivial⟩, ⟨rfl, rfl, rfl, trivial⟩⟩, ?_⟩
  obtain ⟨h', r, he, ht, -, hz, hlen, -⟩ :=
    assign_keeps_min chain123and7 none [3] [0, 1, 2] [7] [1, 2, 3]
      ⟨rfl, trivial⟩ ⟨rfl, rfl, rfl, trivial⟩ (by decide)
  exact ⟨h', r, he, ht, hz, hlen⟩
/-- C13: `copy` of a well-formed source chain leaves every cell of the heap it was
given as it was, so every source node keeps its data, `pPrev` and `pNext`; no node
reachable from the returned reference, through `pNext` or `pPrev`, is a source
node (each is a cell that was not allocated before the call); and overwriting the
data of such a node leaves every source node unchanged. -/
theorem copy_shares_nothing (h : Heap T) (spv : Ptr) (sas : List Nat) (svs : List T)
    (hs : Seg h spv sas svs none) :
    ∃ h' r, copy h sas.head? = some (h', r) ∧
      (∀ a, a < h.length → h'.read a = h.read a) ∧
      (∀ a, a ∈ sas → h'.read a = h.read a) ∧
      (∀ c b, r = some c → Reach h' c b →
        b ∉ sas ∧ h.read b = none ∧
        ∀ v : T, ∃ h'', setData h' b v = some h'' ∧ ∀ a, a ∈ sas → h''.read a = h.read a) := by
  obtain ⟨h', cs, he, hseg, -, hfr, -, hge⟩ := copy_seg hs
  rw [headOr_none_eq_head?] at he
  have hsrc : ∀ a, a ∈ sas → h'.read a = h.read a := fun a ha => hfr a (hs.mem_lt ha)
  refine ⟨h', _, he, hfr, hsrc, fun c b hc hreach => ?_⟩
  have hb : b ∈ cs := hseg.reach_mem (lastOr_none_mem hc) hreach
  have hbl := hge b hb
  have hbs : b ∉ sas := fun hm => by have := hs.mem_lt hm; omega
  refine ⟨hbs, read_ge hbl, fun v => ?_⟩
  obtain ⟨n, hn⟩ := hseg.mem_read hb
  refine ⟨h'.set b (some { n with data := v }), by simp [setData, hn], fun a ha => ?_⟩
  have hba : b ≠ a := fun e => hbs (e ▸ ha)
  rw [read_set_ne _ hba, hsrc a ha]

theorem copy_shares_nothing_witness :
    Seg chain123 none [0, 1, 2] [1, 2, 3] none ∧
      ∃ h' r, copy chain123 (some 0) = some (h', r) ∧
        h'.read 0 = chain123.read 0 ∧ h'.read 1 = chain123.read 1 ∧
        h'.read 2 = chain123.read 2 := by
  refine ⟨⟨rfl, rfl, rfl, trivial⟩, ?_⟩
  obtain ⟨h', r, he, -, hsrc, -⟩ :=
    copy_shares_nothing chain123 none [0, 1, 2] [1, 2, 3] ⟨rfl, rfl, rfl, trivial⟩
  exact ⟨h', r, he, hsrc 0 (by decide), hsrc 1 (by decide), hsrc 2 (by decide)⟩

/-- C18: `copy` of a non-empty well-formed source chain with values `y :: ys` returns
a node that holds `y` and has a null `pNext`, so `size` of the result is 1; the
nodes it creates, none of them allocated before, form one well-formed chain of as
many nodes as the source, holding the source values in reverse order, whose last
node is the returned one; walking `pPrev` from the returned node yields the source
values in source order. The call allocates exactly as many cells as the source has
nodes, leaves every cell of the heap it was given as it was, and the cells it
allocates are exactly the nodes of that one chain: it creates no other node. -/
theorem copy_returns_tail (h : Heap T) (spv : Ptr) (s : Nat) (sas : List Nat) (y : T)
    (ys : List T) (hs : Seg h spv (s :: sas) (y :: ys) none) :
    ∃ h' c cn cs, copy h (some s) = some (h', some c) ∧
      h'.read c = some cn ∧ cn.data = y ∧ cn.pNext = none ∧
      size h' (some c) = some 1 ∧
      Seg h' none cs (y :: ys).reverse none ∧
      cs.getLast? = some c ∧
      cs.length = ys.length + 1 ∧
      (∀ a, a ∈ cs → h.read a = none) ∧
      traverseBack h' (some c) = some (y :: ys) ∧
      h'.length = h.length + (ys.length + 1) ∧
      (∀ a, a < h.length → h'.read a = h.read a) ∧
      (∀ a, a ∈ cs ↔ (h.length ≤ a ∧ a < h'.length)) := by
  obtain ⟨h', cs, he, hseg, hnl, hfr, hnew, hge⟩ := copy_seg hs
  have hlen : cs.length = ys.length + 1 := by simpa using hseg.length_eq
  have hslen : (s :: sas).length = ys.length + 1 := by simpa using hs.length_eq
  rw [hslen] at hnl
  have hiff : ∀ a, a ∈ cs ↔ (h.length ≤ a ∧ a < h'.length) := fun a =>
    ⟨fun ha => ⟨hge a ha, hseg.mem_lt ha⟩, fun ha => hnew a ha.1 ha.2⟩
  rcases eq_nil_or_snoc cs with rfl | ⟨l, c, rfl⟩
  · simp at hlen
  have hback := traverseBack_seg hseg hseg.nodup
  rw [lastOr_concat] at he hback
  rw [List.reverse_reverse] at hback
  have hseg' : Seg h' none (l ++ [c]) (ys.reverse ++ [y]) none := by simpa using hseg
  have hl : l.length = ys.reverse.length := by simpa using hlen
  obtain ⟨-, hc, -⟩ := hseg'.split hl
  simp only [headOr_nil] at hc
  have hone : Seg h' (lastOr none l) [c] [y] none := by simp [hc]
  refine ⟨h', c, _, l ++ [c], he, hc, rfl, rfl, size_seg hone, hseg, by simp, hlen,
    fun a ha => read_ge (hge a ha), hback, hnl, hfr, hiff⟩

theorem copy_returns_tail_witness :
    Seg chain123 none [0, 1, 2] [1, 2, 3] none ∧
      ∃ h' c cs, copy chain123 (some 0) = some (h', some c) ∧
        size h' (some c) = some 1 ∧ traverseBack h' (some c) = some [1, 2, 3] ∧
        Seg h' none cs [3, 2, 1] none ∧ h'.length = 6 ∧
        (∀ a, a ∈ cs ↔ (3 ≤ a ∧ a < h'.length)) := by
  refine ⟨⟨rfl, rfl, rfl, trivial⟩, ?_⟩
  obtain ⟨h', c, cn, cs, he, -, -, -, hz, hseg, -, -, -, hb, hnl, -, hiff⟩ :=
    copy_returns_tail chain123 none 0 [1, 2] 1 [2, 3] ⟨rfl, rfl, rfl, trivial⟩
  exact ⟨h', c, cs, he, hz, hb, hseg, hnl, hiff⟩

/-- C15: the invariant set of the data model is preserved by every operation. In a
heap where every non-null link refers to an allocated node, `A.pNext == B` exactly
when `B.pPrev == A`, and following `pNext` or `pPrev` from any node reaches null,
each of the following calls returns and leaves a heap with the same properties:
`insert` in either mode at a null or allocated position, `remove` of null or of an
allocated node, `copy` of a null or allocated source, `assign` to a destination
root that is null or a head from a null or allocated source, and `clear` of a root
that is null or a head. -/
theorem invariant_preserved (h : Heap T) (hinv : Inv h) :
    (∀ (p : Ptr) (v : T) (after : Bool), Valid h p →
      ∃ h' r, insert h p v after = some (h', r) ∧ Inv h') ∧
    (∀ p : Ptr, Valid h p → ∃ h' r, remove h p = some (h', r) ∧ Inv h') ∧
    (∀ p : Ptr, Valid h p → ∃ h' r, copy h p = some (h', r) ∧ Inv h') ∧
    (∀ d s : Ptr, IsHead h d → Valid h s →
      ∃ h' r, assign h d s = some (h', r) ∧ Inv h') ∧
    (∀ p : Ptr, IsHead h p → ∃ h' r, clear h p = some (h', r) ∧ Inv h') := by
  have hc := hinv.chains
  refine ⟨fun p v after hp => ?_, fun p hp => ?_, fun p hp => ?_, fun d s hd hs => ?_,
    fun p hp => ?_⟩
  · obtain ⟨h', r, he, hc'⟩ := insert_chains hc hp v after
    exact ⟨h', r, he, hc'.inv⟩
  · obtain ⟨h', r, he, hc'⟩ := remove_chains hc hp
    exact ⟨h', r, he, hc'.inv⟩
  · obtain ⟨h', r, he, hc'⟩ := copy_chains hc hp
    exact ⟨h', r, he, hc'.inv⟩
  · obtain ⟨h', r, he, hc'⟩ := assign_chains hc hd hs
    exact ⟨h', r, he, hc'.inv⟩
  · obtain ⟨h', r, he, hc'⟩ := clear_chains hc hp
    exact ⟨h', r, he, hc'.inv⟩

theorem invariant_preserved_witness :
    Inv chain123 ∧
      (∃ h' r, insert chain123 (some 1) 9 false = some (h', r) ∧ Inv h') ∧
      (∃ h' r, remove chain123 (some 1) = some (h', r) ∧ Inv h') ∧
      (∃ h' r, copy chain123 (some 0) = some (h', r) ∧ Inv h') ∧
      (∃ h' r, assign chain123 (some 0) (some 1) = some (h', r) ∧ Inv h') ∧
      (∃ h' r, clear chain123 (some 0) = some (h', r) ∧ Inv h') := by
  have hv : ∀ a, a < 3 → Valid chain123 (some a) := by
    intro a ha
    interval_cases a
    · exact Or.inr ⟨0, _, rfl, rfl⟩
    · exact Or.inr ⟨1, _, rfl, rfl⟩
    · exact Or.inr ⟨2, _, rfl, rfl⟩
  have hh : IsHead chain123 (some 0) := Or.inr ⟨0, _, rfl, rfl, rfl⟩
  obtain ⟨h1, h2, h3, h4, h5⟩ := invariant_preserved chain123 chain123_inv
  exact ⟨chain123_inv, h1 (some 1) 9 false (hv 1 (by decide)), h2 (some 1) (hv 1 (by decide)),
    h3 (some 0) (hv 0 (by decide)), h4 (some 0) (some 1) hh (hv 1 (by decide)),
    h5 (some 0) hh⟩

end NodeH
